import Mathlib

/-!
# Verification of the wrightplay remote-control bridge

This development embeds the core algorithms of the repository in Lean 4 and
proves properties of them:

* the remote-value serializer (src/serializer/serializeValue.ts and the
  accompanying parseSerializedValue), modelled over an explicit heap so that
  cyclic and shared values are represented faithfully;
* the glob-to-regex translation (src/util/globToRegex.ts);
* the CLI exit-code accumulation (src/cli/api.ts);
* the browser-side route state machine (Route.ts) and route dispatch
  (client WSClient.ts, RouteHandler.ts);
* the host-side WebSocket server: universal route handler bypass logic and
  the handle protocol (WSServer).

JavaScript mutable values are modelled as a `Store` (a list of heap nodes)
together with values that are either primitives or references (indices) into
the store.  `Object.is` becomes decidable equality on such values: primitives
compare by value (with NaN equal to NaN and -0 distinct from +0, which the
inductive encoding gives for free) and references compare by index.
-/

/-- JavaScript primitive values as distinguished by the serializer.
Finite numbers are carried as rationals (the serializer passes them through
unchanged, so any carrier with decidable equality is faithful); the special
numerics NaN, Infinity, -Infinity and -0 are separate constructors because
the code treats them separately (via Object.is checks before the typeof
checks). -/
inductive Prim : Type where
  | null : Prim
  | undefined : Prim
  | bool (b : Bool) : Prim
  | num (q : Rat) : Prim
  | str (s : String) : Prim
  | nan : Prim
  | inf : Prim
  | negInf : Prim
  | negZero : Prim
  | bigint (i : Int) : Prim
deriving DecidableEq, Repr

/-- A JavaScript value: a primitive, or a reference (pointer) into the store.
Equality of `JSVal` is exactly the `Object.is` identity check used by
`innerSerializeValue`'s visited list. -/
inductive JSVal : Type where
  | prim (p : Prim) : JSVal
  | ref (a : Nat) : JSVal
deriving DecidableEq, Repr

/-- A heap node: the object kinds the serializer distinguishes.
`error`'s cause is a value (an absent cause is the value `undefined`, which
is what property access yields in JavaScript); its stack is an optional
string (a `none` stack models an Error whose stack field is absent).
`fn` is a function object (unencodable); its string is the source text that
`String(value)` would render. -/
inductive Node : Type where
  | url (href : String) : Node
  | date (iso : String) : Node
  | regexp (source flags : String) : Node
  | error (name message : String) (cause : JSVal) (stack : Option String) : Node
  | arr (elems : List JSVal) : Node
  | obj (props : List (String × JSVal)) : Node
  | handle (id : Nat) : Node
  | fn (src : String) : Node
deriving DecidableEq, Repr

/-- The heap: node `a` of the graph is `store[a]`. -/
abbrev Store : Type := List Node

/-- Payload of the `n` discriminator of a serialized node
(finite number, boolean, string, or null). -/
inductive NVal : Type where
  | null : NVal
  | bool (b : Bool) : NVal
  | num (q : Rat) : NVal
  | str (s : String) : NVal
deriving DecidableEq, Repr

/-- Payload of the `v` discriminator (the sentinel values). -/
inductive VSent : Type where
  | undefined : VSent
  | nan : VSent
  | inf : VSent
  | negInf : VSent
  | negZero : VSent
deriving DecidableEq, Repr

/-- A serialized value: the tagged JSON tree of `SerializedValue`
(src/serializer/Serializable.ts).  Every node carries its position `i`;
`backref` is a node with no discriminator, i.e. a back-reference `{ i }`. -/
inductive SVal : Type where
  | backref (i : Nat) : SVal
  | nprim (i : Nat) (v : NVal) : SVal
  | sent (i : Nat) (v : VSent) : SVal
  | big (i : Nat) (s : String) : SVal
  | url (i : Nat) (s : String) : SVal
  | date (i : Nat) (s : String) : SVal
  | regexp (i : Nat) (source flags : String) : SVal
  | handle (i : Nat) (id : Nat) : SVal
  | err (i : Nat) (name message : String) (cause : Option SVal) (stack : Option String) : SVal
  | arr (i : Nat) (elems : List SVal) : SVal
  | obj (i : Nat) (props : List (String × SVal)) : SVal
deriving Repr

/-- The position field `i` common to every serialized node. -/
def SVal.idx : SVal → Nat
  | .backref i => i
  | .nprim i _ => i
  | .sent i _ => i
  | .big i _ => i
  | .url i _ => i
  | .date i _ => i
  | .regexp i _ _ => i
  | .handle i _ => i
  | .err i _ _ _ _ => i
  | .arr i _ => i
  | .obj i _ => i

/-- One decimal digit as a character (used to model `BigInt.prototype.toString`). -/
def digitChar (d : Nat) : Char :=
  match d with
  | 0 => '0' | 1 => '1' | 2 => '2' | 3 => '3' | 4 => '4'
  | 5 => '5' | 6 => '6' | 7 => '7' | 8 => '8' | _ => '9'

/-- Numeric value of a decimal digit character. -/
def charDigit (c : Char) : Nat :=
  match c with
  | '0' => 0 | '1' => 1 | '2' => 2 | '3' => 3 | '4' => 4
  | '5' => 5 | '6' => 6 | '7' => 7 | '8' => 8 | _ => 9

/-- Decimal rendering of a natural number, as JavaScript's toString produces. -/
def natToDecString (n : Nat) : String :=
  if n = 0 then "0" else ((Nat.digits 10 n).reverse.map digitChar).asString

/-- Decimal rendering of an integer (model of `BigInt.prototype.toString`). -/
def intToDecString (i : Int) : String :=
  match i with
  | .ofNat n => natToDecString n
  | .negSucc n => "-" ++ natToDecString (n + 1)

/-- Decimal parsing of a natural number from a character list. -/
def decCharsToNat (l : List Char) : Nat :=
  l.foldl (fun acc c => acc * 10 + charDigit c) 0

/-- Model of `BigInt(string)` restricted to the strings the encoder emits. -/
def decStringToInt (s : String) : Int :=
  match s.toList with
  | '-' :: rest => -(decCharsToNat rest : Int)
  | l => (decCharsToNat l : Int)

/-! ## The serializer (src/serializer/serializeValue.ts)

`innerSerializeValue` is translated with an explicit fuel argument so that the
definition is structurally recursive (the JavaScript original terminates on
every heap because the visited list can only grow to the number of distinct
values; fuel plays that role here and theorems take successful runs as input).
The `fallback` parameter is `none` for the `noFallback` marker.  List and
property recursions burn fuel per element, which keeps the serializer and the
parser fuel-aligned: a successful serialization at a given fuel parses back at
the same fuel. -/

mutual

/-- Model of `innerSerializeValue` (src/serializer/serializeValue.ts).
The branch order follows the source: the visited (`Object.is`) check first,
then the push, then -0 / NaN / undefined / Infinity / -Infinity / null /
number / boolean / string / bigint / Handle / URL / Date / RegExp / Error /
Array / object, and finally the fallback-or-throw branch for unencodable
values (function objects).  A dangling reference cannot arise in JavaScript;
it is mapped to an error here. -/
def innerSerializeValue (store : Store) :
    Nat → JSVal → Option JSVal → List JSVal → Except String (SVal × List JSVal)
  | 0, _, _, _ => .error "out of fuel"
  | fuel + 1, value, fallback, visited =>
    match visited.findIdx? (fun w => value = w) with
    | some j => .ok (.backref j, visited)
    | none =>
      let i := visited.length
      let visited := visited ++ [value]
      match value with
      | .prim .negZero => .ok (.sent i .negZero, visited)
      | .prim .nan => .ok (.sent i .nan, visited)
      | .prim .undefined => .ok (.sent i .undefined, visited)
      | .prim .inf => .ok (.sent i .inf, visited)
      | .prim .negInf => .ok (.sent i .negInf, visited)
      | .prim .null => .ok (.nprim i .null, visited)
      | .prim (.num q) => .ok (.nprim i (.num q), visited)
      | .prim (.bool b) => .ok (.nprim i (.bool b), visited)
      | .prim (.str s) => .ok (.nprim i (.str s), visited)
      | .prim (.bigint n) => .ok (.big i (intToDecString n), visited)
      | .ref a =>
        match store.get? a with
        | none => .error "dangling reference"
        | some (.handle hid) => .ok (.handle i hid, visited)
        | some (.url href) => .ok (.url i href, visited)
        | some (.date iso) => .ok (.date i iso, visited)
        | some (.regexp p f) => .ok (.regexp i p f, visited)
        | some (.error n m c s) => do
          let (cs, visited') ← innerSerializeValue store fuel c fallback visited
          .ok (.err i n m (some cs) s, visited')
        | some (.arr elems) => do
          let (es, visited') ← innerSerializeList store fuel elems fallback visited
          .ok (.arr i es, visited')
        | some (.obj props) => do
          let (ps, visited') ← innerSerializeProps store fuel props fallback visited
          .ok (.obj i ps, visited')
        | some (.fn src) =>
          match fallback with
          | some fb => innerSerializeValue store fuel fb none visited
          | none => .error ("Unexpected value: " ++ src)

/-- Serialization of the element list of an array (`value.map(...)`). -/
def innerSerializeList (store : Store) :
    Nat → List JSVal → Option JSVal → List JSVal → Except String (List SVal × List JSVal)
  | _, [], _, visited => .ok ([], visited)
  | 0, _ :: _, _, _ => .error "out of fuel"
  | fuel + 1, v :: vs, fallback, visited => do
    let (s, visited₁) ← innerSerializeValue store fuel v fallback visited
    let (ss, visited₂) ← innerSerializeList store fuel vs fallback visited₁
    .ok (s :: ss, visited₂)

/-- Serialization of the property list of a plain object (`Object.entries(value).map(...)`). -/
def innerSerializeProps (store : Store) :
    Nat → List (String × JSVal) → Option JSVal → List JSVal →
    Except String (List (String × SVal) × List JSVal)
  | _, [], _, visited => .ok ([], visited)
  | 0, _ :: _, _, _ => .error "out of fuel"
  | fuel + 1, (k, v) :: ps, fallback, visited => do
    let (s, visited₁) ← innerSerializeValue store fuel v fallback visited
    let (ss, visited₂) ← innerSerializeProps store fuel ps fallback visited₁
    .ok ((k, s) :: ss, visited₂)

end

/-- Model of `serializeValue` (the exported wrapper): serialize against an
empty visited list.  `fallback = none` models the default `noFallback`. -/
def serializeValue (store : Store) (fuel : Nat) (value : JSVal)
    (fallback : Option JSVal) : Except String (SVal × List JSVal) :=
  innerSerializeValue store fuel value fallback []

/-! ## The parser (parseSerializedValue)

The parser walks the tree while building the `refs` map from positions to
constructed values, and allocates the objects it constructs (URLs, Dates,
RegExps, Errors, arrays, plain objects) in an output store.  Containers are
registered in `refs` before their children are parsed, so cycles close
correctly.  In the source the array/object/error contents are filled in by
mutation after registration; nothing ever reads a node's contents during
parsing (back-references only need the reference itself), so the model
finalizes each node with a single `List.set` at its allocation index after
the children have been parsed, which is observationally the same. -/

/-- Parse state: the output heap and the `refs` map (position to value). -/
structure PSt : Type where
  out : Store
  refs : List (Nat × JSVal)
deriving Repr

/-- `Map.prototype.set`: replace the value at an existing key in place,
otherwise append. -/
def refsSet : List (Nat × JSVal) → Nat → JSVal → List (Nat × JSVal)
  | [], k, v => [(k, v)]
  | (k', v') :: rest, k, v =>
    if k' = k then (k, v) :: rest else (k', v') :: refsSet rest k v

/-- `Map.prototype.get` / `has`: first binding of the key, if any. -/
def refsGet? : List (Nat × JSVal) → Nat → Option JSVal
  | [], _ => none
  | (k', v') :: rest, k => if k' = k then some v' else refsGet? rest k

/-- JavaScript property assignment `obj[k] = v` on a property list:
overwrite in place if the key exists (keeping its insertion position),
otherwise append. -/
def jsObjSet : List (String × JSVal) → String → JSVal → List (String × JSVal)
  | [], k, v => [(k, v)]
  | (k', v') :: rest, k, v =>
    if k' = k then (k, v) :: rest else (k', v') :: jsObjSet rest k v

mutual

/-- Model of `innerParseSerializedValue`
(the parser next to the explicit-resource-management polyfill in
src/common/utils/patchDisposable.ts).  Branch order follows the source:
the `refs` short-circuit first, then the container discriminators `a`, `o`,
`e` (registered before recursing), then the leaf discriminators `n`, `v`,
`b`, `u`, `d`, `r`, `h` (registered after construction), and otherwise the
"Unexpected value" error — which is what a back-reference to a position
never registered produces. -/
def innerParseSerializedValue (targets : List (Option JSVal)) :
    Nat → SVal → PSt → Except String (JSVal × PSt)
  | 0, _, _ => .error "out of fuel"
  | fuel + 1, v, st =>
    match refsGet? st.refs v.idx with
    | some w => .ok (w, st)
    | none =>
      match v with
      | .arr i elems =>
        let p := st.out.length
        let st₁ : PSt := ⟨st.out ++ [Node.arr []], refsSet st.refs i (.ref p)⟩
        do
          let (vals, st₂) ← innerParseList targets fuel elems st₁
          .ok (.ref p, ⟨st₂.out.set p (Node.arr vals), st₂.refs⟩)
      | .obj i props =>
        let p := st.out.length
        let st₁ : PSt := ⟨st.out ++ [Node.obj []], refsSet st.refs i (.ref p)⟩
        do
          let (pairs, st₂) ← innerParseProps targets fuel props [] st₁
          .ok (.ref p, ⟨st₂.out.set p (Node.obj pairs), st₂.refs⟩)
      | .err i n m c s =>
        let p := st.out.length
        let st₁ : PSt := ⟨st.out ++ [Node.error n m (.prim .undefined) s],
                          refsSet st.refs i (.ref p)⟩
        (match c with
        | some cs => do
          let (cv, st₂) ← innerParseSerializedValue targets fuel cs st₁
          .ok (.ref p, ⟨st₂.out.set p (Node.error n m cv s), st₂.refs⟩)
        | none => .ok (.ref p, st₁))
      | .nprim i nv =>
        let w : JSVal := match nv with
          | .null => .prim .null
          | .bool b => .prim (.bool b)
          | .num q => .prim (.num q)
          | .str s => .prim (.str s)
        .ok (w, ⟨st.out, refsSet st.refs i w⟩)
      | .sent i sv =>
        let w : JSVal := match sv with
          | .undefined => .prim .undefined
          | .nan => .prim .nan
          | .inf => .prim .inf
          | .negInf => .prim .negInf
          | .negZero => .prim .negZero
        .ok (w, ⟨st.out, refsSet st.refs i w⟩)
      | .big i s =>
        let w : JSVal := .prim (.bigint (decStringToInt s))
        .ok (w, ⟨st.out, refsSet st.refs i w⟩)
      | .url i u =>
        let p := st.out.length
        .ok (.ref p, ⟨st.out ++ [Node.url u], refsSet st.refs i (.ref p)⟩)
      | .date i d =>
        let p := st.out.length
        .ok (.ref p, ⟨st.out ++ [Node.date d], refsSet st.refs i (.ref p)⟩)
      | .regexp i ps fs =>
        let p := st.out.length
        .ok (.ref p, ⟨st.out ++ [Node.regexp ps fs], refsSet st.refs i (.ref p)⟩)
      | .handle i hid =>
        (match targets.get? hid with
        | some (some t) => .ok (t, ⟨st.out, refsSet st.refs i t⟩)
        | _ => .error "Unexpected handle")
      | .backref _ => .error "Unexpected value"

/-- Parse the element list of a serialized array (`value.a.forEach(...)`). -/
def innerParseList (targets : List (Option JSVal)) :
    Nat → List SVal → PSt → Except String (List JSVal × PSt)
  | _, [], st => .ok ([], st)
  | 0, _ :: _, _ => .error "out of fuel"
  | fuel + 1, s :: ss, st => do
    let (v, st₁) ← innerParseSerializedValue targets fuel s st
    let (vs, st₂) ← innerParseList targets fuel ss st₁
    .ok (v :: vs, st₂)

/-- Parse the property list of a serialized object
(`value.o.forEach(({ k, v }) => { obj[k] = ... })`), accumulating the
property list of the object under construction with JavaScript assignment
semantics. -/
def innerParseProps (targets : List (Option JSVal)) :
    Nat → List (String × SVal) → List (String × JSVal) → PSt →
    Except String (List (String × JSVal) × PSt)
  | _, [], acc, st => .ok (acc, st)
  | 0, _ :: _, _, _ => .error "out of fuel"
  | fuel + 1, (k, s) :: ps, acc, st => do
    let (v, st₁) ← innerParseSerializedValue targets fuel s st
    innerParseProps targets fuel ps (jsObjSet acc k v) st₁

end

/-- Model of `parseSerializedValue` (the exported wrapper): parse with a fresh
`refs` map, extending the given heap (`store₀` is empty for a fresh realm). -/
def parseSerializedValue (targets : List (Option JSVal)) (fuel : Nat)
    (s : SVal) (store₀ : Store) : Except String (JSVal × PSt) :=
  innerParseSerializedValue targets fuel s ⟨store₀, []⟩

/-! ## Structural equality of heap values

Two values (in their respective heaps) are structurally equal when some
relation on pointers relates their reachable objects shape-for-shape — the
formal counterpart of deep equality with cycle tracking on mutable JavaScript
object graphs. -/

/-- Correspondence of two values under a pointer relation `r`:
equal primitives, or related references. -/
def ValCorrP (r : Nat → Nat → Prop) : JSVal → JSVal → Prop
  | .prim p, .prim q => p = q
  | .ref a, .ref b => r a b
  | _, _ => False

/-- Pointwise correspondence of two value lists. -/
def ValsCorrP (r : Nat → Nat → Prop) : List JSVal → List JSVal → Prop
  | [], [] => True
  | v :: vs, w :: ws => ValCorrP r v w ∧ ValsCorrP r vs ws
  | _, _ => False

/-- Pointwise correspondence of two property lists (keys equal in order). -/
def PropsCorrP (r : Nat → Nat → Prop) :
    List (String × JSVal) → List (String × JSVal) → Prop
  | [], [] => True
  | (k, v) :: vs, (k', w) :: ws => k = k' ∧ ValCorrP r v w ∧ PropsCorrP r vs ws
  | _, _ => False

/-- Two heap nodes match under a pointer relation: same kind, equal scalar
fields, corresponding children. -/
def NodeMatchP (r : Nat → Nat → Prop) : Node → Node → Prop
  | .url h₁, .url h₂ => h₁ = h₂
  | .date d₁, .date d₂ => d₁ = d₂
  | .regexp p₁ f₁, .regexp p₂ f₂ => p₁ = p₂ ∧ f₁ = f₂
  | .error n₁ m₁ c₁ s₁, .error n₂ m₂ c₂ s₂ =>
    n₁ = n₂ ∧ m₁ = m₂ ∧ ValCorrP r c₁ c₂ ∧ s₁ = s₂
  | .arr l₁, .arr l₂ => ValsCorrP r l₁ l₂
  | .obj p₁, .obj p₂ => PropsCorrP r p₁ p₂
  | .handle i₁, .handle i₂ => i₁ = i₂
  | .fn s₁, .fn s₂ => s₁ = s₂
  | _, _ => False

/-- Membership in a finite pointer relation. -/
def memRel (R : List (Nat × Nat)) : Nat → Nat → Prop := fun a b => (a, b) ∈ R

/-- One related pair is coherent: both pointers resolve and their nodes match. -/
def pairOk (S₁ S₂ : Store) (R : List (Nat × Nat)) (p : Nat × Nat) : Prop :=
  match S₁.get? p.1, S₂.get? p.2 with
  | some n₁, some n₂ => NodeMatchP (memRel R) n₁ n₂
  | _, _ => False

/-- `R` is a bisimulation between the two heaps. -/
def IsBisim (S₁ S₂ : Store) (R : List (Nat × Nat)) : Prop := ∀ p ∈ R, pairOk S₁ S₂ R p

/-- `v₁` in heap `S₁` is structurally equal to `v₂` in heap `S₂`. -/
def StructEquiv (S₁ : Store) (v₁ : JSVal) (S₂ : Store) (v₂ : JSVal) : Prop :=
  ∃ R, IsBisim S₁ S₂ R ∧ ValCorrP (memRel R) v₁ v₂

instance memRelDec (R : List (Nat × Nat)) : DecidableRel (memRel R) :=
  fun a b => inferInstanceAs (Decidable ((a, b) ∈ R))

instance valCorrPDec (r : Nat → Nat → Prop) [DecidableRel r] :
    ∀ v w, Decidable (ValCorrP r v w)
  | .prim p, .prim q => inferInstanceAs (Decidable (p = q))
  | .prim _, .ref _ => inferInstanceAs (Decidable False)
  | .ref _, .prim _ => inferInstanceAs (Decidable False)
  | .ref a, .ref b => inferInstanceAs (Decidable (r a b))

instance valsCorrPDec (r : Nat → Nat → Prop) [DecidableRel r] :
    ∀ vs ws, Decidable (ValsCorrP r vs ws)
  | [], [] => inferInstanceAs (Decidable True)
  | [], _ :: _ => inferInstanceAs (Decidable False)
  | _ :: _, [] => inferInstanceAs (Decidable False)
  | v :: vs, w :: ws =>
    have : Decidable (ValsCorrP r vs ws) := valsCorrPDec r vs ws
    inferInstanceAs (Decidable (ValCorrP r v w ∧ ValsCorrP r vs ws))

instance propsCorrPDec (r : Nat → Nat → Prop) [DecidableRel r] :
    ∀ vs ws, Decidable (PropsCorrP r vs ws)
  | [], [] => inferInstanceAs (Decidable True)
  | [], _ :: _ => inferInstanceAs (Decidable False)
  | _ :: _, [] => inferInstanceAs (Decidable False)
  | (k, v) :: vs, (k', w) :: ws =>
    have : Decidable (PropsCorrP r vs ws) := propsCorrPDec r vs ws
    inferInstanceAs (Decidable (k = k' ∧ ValCorrP r v w ∧ PropsCorrP r vs ws))

instance nodeMatchPDec (r : Nat → Nat → Prop) [DecidableRel r] :
    ∀ n₁ n₂, Decidable (NodeMatchP r n₁ n₂) := fun n₁ n₂ => by
  cases n₁ <;> cases n₂ <;> simp only [NodeMatchP] <;> infer_instance

instance pairOkDec (S₁ S₂ : Store) (R : List (Nat × Nat)) (p : Nat × Nat) :
    Decidable (pairOk S₁ S₂ R p) := by
  unfold pairOk
  rcases S₁.get? p.1 with _ | n₁ <;> rcases S₂.get? p.2 with _ | n₂ <;>
    first
      | exact inferInstanceAs (Decidable False)
      | exact inferInstanceAs (Decidable (NodeMatchP (memRel R) n₁ n₂))

/-- A heap node that is not a host-handle reference. -/
def notHandle (n : Node) : Prop :=
  match n with
  | .handle _ => False
  | _ => True

instance notHandleDec : ∀ n, Decidable (notHandle n)
  | .handle _ => inferInstanceAs (Decidable False)
  | .url _ => inferInstanceAs (Decidable True)
  | .date _ => inferInstanceAs (Decidable True)
  | .regexp _ _ => inferInstanceAs (Decidable True)
  | .error _ _ _ _ => inferInstanceAs (Decidable True)
  | .arr _ => inferInstanceAs (Decidable True)
  | .obj _ => inferInstanceAs (Decidable True)
  | .fn _ => inferInstanceAs (Decidable True)

/-- The heap mentions no host-handle objects ("handle-free value"). -/
def HandleFree (store : Store) : Prop := ∀ n ∈ store, notHandle n

instance handleFreeDec (store : Store) : Decidable (HandleFree store) :=
  inferInstanceAs (Decidable (∀ n ∈ store, notHandle n))

/-- Plain-object well-formedness: property keys are distinct, as JavaScript
objects guarantee. -/
def objNodupKeys (n : Node) : Prop :=
  match n with
  | .obj props => (props.map Prod.fst).Nodup
  | _ => True

instance objNodupKeysDec : ∀ n, Decidable (objNodupKeys n)
  | .obj props => inferInstanceAs (Decidable ((props.map Prod.fst).Nodup))
  | .handle _ => inferInstanceAs (Decidable True)
  | .url _ => inferInstanceAs (Decidable True)
  | .date _ => inferInstanceAs (Decidable True)
  | .regexp _ _ => inferInstanceAs (Decidable True)
  | .error _ _ _ _ => inferInstanceAs (Decidable True)
  | .arr _ => inferInstanceAs (Decidable True)
  | .fn _ => inferInstanceAs (Decidable True)

/-- All plain objects of the heap have distinct keys. -/
def ObjWF (store : Store) : Prop := ∀ n ∈ store, objNodupKeys n

instance objWFDec (store : Store) : Decidable (ObjWF store) :=
  inferInstanceAs (Decidable (∀ n ∈ store, objNodupKeys n))

/-- The pointer relation accumulated by a serialize/parse run: position `i`
relates the source reference recorded in `visited` to the parsed reference
recorded in `refs`. -/
def pairsList (visited : List JSVal) (refs : List (Nat × JSVal)) : List (Nat × Nat) :=
  (List.range visited.length).filterMap (fun i =>
    match visited.get? i, refsGet? refs i with
    | some (.ref a), some (.ref b) => some (a, b)
    | _, _ => none)

/-! ## CLI exit-code accumulation (src/cli/api.ts)

The CLI action runs each runner configuration sequentially and performs
`process.exitCode ||= exitCode` after each run.  `process.exitCode` starts
unset (falsy), modelled as 0; `||=` assigns only when the current value is
falsy, i.e. 0. -/

/-- One `process.exitCode ||= exitCode` step. -/
def exitCodeStep (acc code : Nat) : Nat := if acc = 0 then code else acc

/-- Exit code after sequentially running all configurations. -/
def cliExitCode (exitCodes : List Nat) : Nat := exitCodes.foldl exitCodeStep 0

/-! ## Glob to regex (src/util/globToRegex.ts)

The token loop is translated index-for-index.  The source mutates the loop
index inside the `\\` and `*` cases; the model advances the index by the same
amounts.  `tokens.push(undefined)` (which the `\\` case produces when the
read runs past the end of the glob) contributes the empty string to the final
join, which is what `Array.prototype.join` does with undefined. -/

/-- The regular-expression syntax characters the source escapes
(`syntaxChars` in the source). -/
def escapeGlobChars : List Char :=
  ['^', '$', '\\', '.', '*', '+', '?', '(', ')', '[', ']', '\x7b', '\x7d', '|']

/-- `syntaxChars.has(c) ? backslash + c : c` as a token string. -/
def escRegex (c : Char) : String :=
  if c ∈ escapeGlobChars then "\\" ++ String.singleton c else String.singleton c

/-- Number of leading stars of a character list (the inner
`while (glob[i + 1] === '*')` loop). -/
def countLeadingStars : List Char → Nat
  | '*' :: rest => 1 + countLeadingStars rest
  | _ => 0

/-- The token loop of `globToRegex`.  `i` is the loop index, `inGroup` the
brace-group flag; the fuel (first argument) only needs to exceed the number
of loop iterations, which the wrapper guarantees. -/
def globTokens (g : List Char) : Nat → Nat → Bool → List String
  | 0, _, _ => []
  | fuel + 1, i, inGroup =>
    match g.get? i with
    | none => []
    | some c =>
      if c = '\\' then
        -- i += 1; char := i === glob.length ? c : glob[i + 1]
        let j := i + 1
        if j = g.length then
          escRegex '\\' :: globTokens g fuel (j + 1) inGroup
        else
          (match g.get? (j + 1) with
            | some c' => escRegex c'
            | none => "") :: globTokens g fuel (j + 1) inGroup
      else if c = '*' then
        let extra := countLeadingStars (g.drop (i + 1))
        let lastStar := i + extra
        let beforeDeep := if i = 0 then none else g.get? (i - 1)
        let afterDeep := g.get? (lastStar + 1)
        let isDeep := decide (0 < extra) &&
          (beforeDeep == some '/' || beforeDeep == none) &&
          (afterDeep == some '/' || afterDeep == none)
        if isDeep then "((?:[^/]*(?:/|$))*)" :: globTokens g fuel (lastStar + 2) inGroup
        else "([^/]*)" :: globTokens g fuel (lastStar + 1) inGroup
      else if c = '?' then "." :: globTokens g fuel (i + 1) inGroup
      else if c = '[' then "[" :: globTokens g fuel (i + 1) inGroup
      else if c = ']' then "]" :: globTokens g fuel (i + 1) inGroup
      else if c = '\x7b' then "(" :: globTokens g fuel (i + 1) true
      else if c = '\x7d' then ")" :: globTokens g fuel (i + 1) false
      else if c = ',' then
        (if inGroup then "|" else "\\,") :: globTokens g fuel (i + 1) inGroup
      else escRegex c :: globTokens g fuel (i + 1) inGroup

/-- `globToRegex`: the produced regular-expression source text
(`'^' ... '$'` joined). -/
def globToRegex (glob : String) : String :=
  "^" ++ String.join (globTokens glob.toList (glob.length + 1) 0 false) ++ "$"

/-! ## Browser-side route state machine (src/WS/route/Route.ts)

A route's ability to be resolved is its `handleResolve` callback being
non-null; `startHandling` installs it, a successful terminal operation (or
`fallback`) clears it through the callback itself.  Each operation's first
statement is `assertNotHandled`, in the synchronous prefix before any await.
The terminal operations await the server's resolve; a server rejection makes
the operation throw without clearing `handleResolve`. -/

/-- Route state: whether `handleResolve` is currently non-null. -/
structure RouteState : Type where
  pending : Bool
deriving DecidableEq, Repr

/-- `startHandling` installs a fresh `handleResolve`. -/
def startHandling (_s : RouteState) : RouteState := ⟨true⟩

/-- The operations a handler can invoke on a route. -/
inductive RouteOp : Type where
  | abort
  | cont
  | fulfill
  | fallback
deriving DecidableEq, Repr

/-- Whether an operation is a terminal action. -/
def RouteOp.isTerminal : RouteOp → Bool
  | .fallback => false
  | _ => true

/-- One route operation.  `serverResolve` is the outcome of
`waitServerResolve` for the terminal operations (`none` = resolved,
`some e` = rejected with message `e`); `fallback` performs no server round
trip.  The returned error string is the thrown message. -/
def routeOp : RouteOp → Option String → RouteState → Except String RouteState
  | _, _, ⟨false⟩ => .error "Route is already handled!"
  | .fallback, _, ⟨true⟩ => .ok ⟨false⟩
  | _, some e, ⟨true⟩ => .error e
  | _, none, ⟨true⟩ => .ok ⟨false⟩

/-! ## Browser-side route dispatch (src/client/ws/WSClient.ts, RouteHandler.ts) -/

/-- A registered route handler.  `hid` stands for the object identity used by
`indexOf`; `matchesURL` is the compiled `parsedMatcher` applied to the request
URL; `maxHandleCount` is `options.times ?? Infinity` with `none` as Infinity. -/
structure ClientRouteHandler : Type where
  hid : Nat
  matchesURL : String → Bool
  handledCount : Nat
  maxHandleCount : Option Nat

/-- `willExpire`: `handledCount + 1 >= maxHandleCount`. -/
def ClientRouteHandler.willExpire (h : ClientRouteHandler) : Bool :=
  match h.maxHandleCount with
  | none => false
  | some times => decide (times ≤ h.handledCount + 1)

/-- The `handledCount += 1` performed by `handle`. -/
def bumpHandled (h : ClientRouteHandler) : ClientRouteHandler :=
  { h with handledCount := h.handledCount + 1 }

/-- `addRoute` pushes the new handler on the front of the stack (`unshift`). -/
def addRoute (h : ClientRouteHandler) (routes : List ClientRouteHandler) :
    List ClientRouteHandler := h :: routes

/-- Remove the first handler with the given identity. -/
def removeFirstHandler : List ClientRouteHandler → Nat → List ClientRouteHandler
  | [], _ => []
  | r :: rest, hid => if r.hid = hid then rest else r :: removeFirstHandler rest hid

/-- `routes.splice(routes.indexOf(handler), 1)`: removes the first occurrence;
when the handler is absent, `indexOf` yields -1 and `splice(-1, 1)` removes
the last entry instead. -/
def spliceOutHandler (routes : List ClientRouteHandler) (hid : Nat) :
    List ClientRouteHandler :=
  if routes.any (fun r => r.hid = hid) then removeFirstHandler routes hid
  else routes.dropLast

/-- Outcome of dispatching one intercepted request on the browser side. -/
inductive DispatchOutcome : Type where
  | handled (hid : Nat)
  | innerContinue
deriving DecidableEq, Repr

/-- The handler loop of `handleRouteMessage`.  `decide hid` is whether the
handler's callback resolves the handle promise with `true` (a terminal
action) or `false` (fallback).  Besides the final routes list and the
outcome, the model returns the invocation trace: for each invoked handler its
identity, its `willExpire` result, and the identities present in the routes
stack at the moment its callback is invoked. -/
def runHandlers (dec : Nat → Bool) :
    List ClientRouteHandler → List ClientRouteHandler →
    List ClientRouteHandler × List (Nat × Bool × List Nat) × DispatchOutcome
  | [], routes => (routes, [], .innerContinue)
  | h :: rest, routes =>
    let exp := h.willExpire
    let routes₁ := if exp then spliceOutHandler routes h.hid else routes
    let routes₂ := routes₁.map (fun r => if r.hid = h.hid then bumpHandled r else r)
    let ev : Nat × Bool × List Nat := (h.hid, exp, routes₁.map ClientRouteHandler.hid)
    if dec h.hid then (routes₂, [ev], .handled h.hid)
    else
      let (rts, evs, outcome) := runHandlers dec rest routes₂
      (rts, ev :: evs, outcome)

/-- `handleRouteMessage` for a request metadata frame: gather the matching
handlers from the stack, then run them in order; if none terminally handles
the request, the outcome is the plain `route.innerContinue()`. -/
def handleRouteMessage (dec : Nat → Bool) (routes : List ClientRouteHandler)
    (url : String) :
    List ClientRouteHandler × List (Nat × Bool × List Nat) × DispatchOutcome :=
  runHandlers dec (routes.filter (fun r => r.matchesURL url)) routes

/-! ## Host-side WebSocket server (WSServer)

The universal route handler and the handle-message processor, translated from
the `WSServer` class.  Host-side JavaScript values live in the same heap
model as the serializer's. -/

/-- `WebSocket.OPEN`. -/
def wsOPEN : Nat := 1

/-- The decision the universal route handler reaches for one intercepted
request (before any client decision comes back). -/
inductive HostRouteAction : Type where
  | continueWithHeaders (headers : List (String × String))
  | continuePlain
  | forward (id : Nat) (hasBody : Bool) (headersArray : List (String × String))
deriving DecidableEq, Repr

/-- Assignment into a string-valued record (property list). -/
def strObjSet : List (String × String) → String → String → List (String × String)
  | [], k, v => [(k, v)]
  | (k', v') :: rest, k, v =>
    if k' = k then (k, v) :: rest else (k', v') :: strObjSet rest k v

/-- First value bound to a key in a string record. -/
def strObjGet? : List (String × String) → String → Option String
  | [], _ => none
  | (k', v') :: rest, k => if k' = k then some v' else strObjGet? rest k

/-- The `reduce` turning a header array into a header record:
`acc[name] = acc[name] ? acc[name] + ',' + value : value` (an existing falsy
value, i.e. the empty string, is overwritten rather than joined). -/
def buildHeaderRecord (headers : List (String × String)) : List (String × String) :=
  headers.foldl
    (fun acc nv =>
      strObjSet acc nv.1
        (match strObjGet? acc nv.1 with
        | some prev => if prev = "" then nv.2 else prev ++ "," ++ nv.2
        | none => nv.2))
    []

/-- The universal route handler (`WSServer.handler`): bypass-marker check
first, then the attached-client check, and only then the forwarded metadata
frame whose id is the current `routeList.length`. -/
def wsServerHandler (uuid : String) (client : Option Nat) (routeListLen : Nat)
    (headersArray : List (String × String)) (hasBody : Bool) : HostRouteAction :=
  match headersArray.findIdx?
      (fun nv => nv.1 == "bypass-" ++ uuid && nv.2 == "true") with
  | some idx => .continueWithHeaders (buildHeaderRecord (headersArray.eraseIdx idx))
  | none =>
    match client with
    | some st => if st = wsOPEN then .forward routeListLen hasBody headersArray
                 else .continuePlain
    | none => .continuePlain

/-- The actions of a handle client message; `jsonValue` reaches the switch's
default branch.  The `arg` of `evaluate` is carried as the already
JSON-parsed serialized tree. -/
inductive HandleAction : Type where
  | evaluate (fn : String) (arg : SVal) (h : Bool)
  | getProperties
  | getProperty (name : String)
  | dispose
  | jsonValue

/-- A handle client message. -/
structure HandleMeta : Type where
  id : Nat
  resolveID : Nat
  action : HandleAction

/-- `createHandleID`: `handleTargets.push(target) - 1` — append and return
the new slot's id. -/
def createHandleID (targets : List (Option JSVal)) (target : JSVal) :
    List (Option JSVal) × Nat :=
  (targets ++ [some target], targets.length)

/-- Whether a value is an `Error` instance (`e instanceof Error`). -/
def isErrorInstance (store : Store) (v : JSVal) : Bool :=
  match v with
  | .ref a =>
    match store.get? a with
    | some (.error _ _ _ _) => true
    | _ => false
  | _ => false

/-- Model of JavaScript `String(v)`.  Primitives are rendered exactly; the
renderings of exotic objects (dates, arrays) are approximations that the
verified claims do not depend on (they only matter for thrown non-Error
values). -/
def jsToString (store : Store) (v : JSVal) : String :=
  match v with
  | .prim .null => "null"
  | .prim .undefined => "undefined"
  | .prim (.bool true) => "true"
  | .prim (.bool false) => "false"
  | .prim (.num q) => if q.den = 1 then intToDecString q.num else "number"
  | .prim (.str s) => s
  | .prim .nan => "NaN"
  | .prim .inf => "Infinity"
  | .prim .negInf => "-Infinity"
  | .prim .negZero => "0"
  | .prim (.bigint n) => intToDecString n
  | .ref a =>
    match store.get? a with
    | some (.error n m _ _) => if m = "" then n else n ++ ": " ++ m
    | some (.fn src) => src
    | some (.url href) => href
    | some (.regexp p f) => "/" ++ p ++ "/" ++ f
    | some (.date iso) => iso
    | some (.arr _) => ""
    | some (.obj _) => "[object Object]"
    | some (.handle _) => "[object Object]"
    | none => "undefined"

/-- Semantics of `parseEvaluateExpression(meta.fn)` applied to
`(target, arg)` (and awaited): given the host heap, the target and the
argument, it may allocate and either returns a value or throws one.  The
compilation of JavaScript source text is outside the model, so the theorems
quantify over this function. -/
def FnSem : Type := Store → JSVal → JSVal → Store × Except JSVal JSVal

/-- `Object.entries(target)` for property registration: the property list of
a plain object; other targets contribute no own enumerable string-keyed
entries in the model. -/
def jsEntries (store : Store) (v : JSVal) : List (String × JSVal) :=
  match v with
  | .ref a =>
    match store.get? a with
    | some (.obj props) => props
    | _ => []
  | _ => []

/-- Property lookup `target[name]` (absent properties yield `undefined`). -/
def jsGetProp (store : Store) (v : JSVal) (name : String) : JSVal :=
  match v with
  | .ref a =>
    match store.get? a with
    | some (.obj props) =>
      match props.lookup name with
      | some w => w
      | none => .prim .undefined
    | _ => .prim .undefined
  | _ => .prim .undefined

/-- Register every property value of `get-properties`, building the host-side
`[name, id]` entry arrays: returns the grown target vector, the grown heap
(one `[name, id]` array node per property), and the references to the entry
arrays. -/
def registerProps (store : Store) (targets : List (Option JSVal)) :
    List (String × JSVal) → Store × List (Option JSVal) × List JSVal
  | [] => (store, targets, [])
  | (k, v) :: rest =>
    let (targets₁, pid) := createHandleID targets v
    let store₁ := store ++ [Node.arr [.prim (.str k), .prim (.num pid)]]
    let entry : JSVal := .ref store.length
    let (store₂, targets₂, entries) := registerProps store₁ targets₁ rest
    (store₂, targets₂, entry :: entries)

/-- The host's reply to a handle message.  `result` is
`serializeValue(result, null)` (the JSON.stringify layer is dropped; the
serializer may in principle run out of fuel, hence the Except). -/
structure HandleReply : Type where
  id : Nat
  resolveID : Nat
  result : Except String SVal
  error : Bool

/-- Model of `WSServer.handleHandleMessage`: the absent-slot check first
(with the disposed/internal-error distinction by comparing the id to the
vector length), then the action switch inside try/catch; every reply
serializes its result with fallback `null`.  On a thrown non-Error value the
catch stores `String(e)`.  (When the argument parser throws, the model
discards its partial allocations — they are unreachable and never observed.) -/
def handleHandleMessage (fnSem : FnSem) (fuel : Nat) (store : Store)
    (targets : List (Option JSVal)) (meta : HandleMeta) :
    Store × List (Option JSVal) × HandleReply :=
  let reply := fun (store' : Store) (result : JSVal) (error : Bool) =>
    HandleReply.mk meta.id meta.resolveID
      ((serializeValue store' fuel result (some (.prim .null))).map Prod.fst) error
  match targets.get? meta.id with
  | some (some target) =>
    (match meta.action with
    | .evaluate _fn arg h =>
      (match parseSerializedValue targets fuel arg store with
      | .error e =>
        let store₁ := store ++ [Node.error "Error" e (.prim .undefined) none]
        (store₁, targets, reply store₁ (.ref store.length) true)
      | .ok (arg', st') =>
        (match fnSem st'.out target arg' with
        | (store₂, .ok returned) =>
          if h then
            let (targets', newID) := createHandleID targets returned
            (store₂, targets', reply store₂ (.prim (.num newID)) false)
          else
            (store₂, targets, reply store₂ returned false)
        | (store₂, .error thrown) =>
          let conv : JSVal :=
            if isErrorInstance store₂ thrown then thrown
            else .prim (.str (jsToString store₂ thrown))
          (store₂, targets, reply store₂ conv true)))
    | .getProperties =>
      (match target with
      | .prim .undefined =>
        let store₁ := store ++ [Node.arr []]
        (store₁, targets, reply store₁ (.ref store.length) false)
      | .prim .null =>
        let store₁ := store ++ [Node.arr []]
        (store₁, targets, reply store₁ (.ref store.length) false)
      | _ =>
        let (store₁, targets₁, entries) := registerProps store targets (jsEntries store target)
        let store₂ := store₁ ++ [Node.arr entries]
        (store₂, targets₁, reply store₂ (.ref store₁.length) false))
    | .getProperty name =>
      let (targets', pid) := createHandleID targets (jsGetProp store target name)
      (store, targets', reply store (.prim (.num pid)) false)
    | .dispose =>
      (store, targets.set meta.id none, reply store (.prim .undefined) false)
    | .jsonValue => (store, targets, reply store target false))
  | _ =>
    let msg := "Unexpected handle, most likely " ++
      (if meta.id < targets.length then "disposed" else "internal error")
    let store₁ := store ++ [Node.error "Error" msg (.prim .undefined) none]
    (store₁, targets, reply store₁ (.ref store.length) true)

/-! ## Claim C2 — CLI exit code accumulation -/

/-- `foldl` over `exitCodeStep` never changes a nonzero accumulator. -/
theorem foldl_exitCodeStep_nonzero (codes : List Nat) (acc : Nat) (h : acc ≠ 0) :
    codes.foldl exitCodeStep acc = acc := by
  induction codes with
  | nil => rfl
  | cons c rest ih => simpa [exitCodeStep, h] using ih

/-- C2 counterexample: with sequential exit codes 1 then 2, the CLI keeps 1
(`process.exitCode ||= exitCode` does not overwrite a truthy value), while
the claimed maximum would be 2.  The exit code is therefore not the maximum
of the per-run exit codes. -/
theorem c2_counterexample :
    cliExitCode [1, 2] = 1 ∧ ([1, 2] : List Nat).foldr max 0 = 2 ∧ (1 : Nat) ≠ 2 :=
  ⟨rfl, rfl, by decide⟩

/-- C2 (amended): when several runner configurations are executed
sequentially by the CLI, the process exit code is the first nonzero per-run
exit code (or 0 when every run exits 0); in particular a later run's exit
code of zero — or any later exit code — never overwrites an earlier nonzero
exit code. -/
theorem c2_first_nonzero (codes : List Nat) :
    cliExitCode codes = ((codes.find? (fun c => c != 0)).getD 0) ∧
    ∀ acc c, acc ≠ 0 → exitCodeStep acc c = acc := by
  constructor
  · induction codes with
    | nil => rfl
    | cons c rest ih =>
      by_cases hc : c = 0
      · subst hc
        simpa [cliExitCode, exitCodeStep] using ih
      · have hbne : (c != 0) = true := by simpa using hc
        simp [cliExitCode, List.find?, hbne, exitCodeStep, hc,
          foldl_exitCodeStep_nonzero rest c hc]
  · intro acc c h
    simp [exitCodeStep, h]

/-- Witness for C2 at a concrete input. -/
theorem c2_first_nonzero_witness :
    cliExitCode [0, 3, 0, 5] = 3 ∧ exitCodeStep 3 0 = 3 :=
  ⟨(c2_first_nonzero [0, 3, 0, 5]).1.trans (by rfl),
   (c2_first_nonzero []).2 3 0 (by decide)⟩

/-! ## Claim C4 — at most one terminal transition per route -/

/-- C4: once a terminal operation (`abort`, `continue`, `fulfill`) has
completed successfully on a route, every further terminal operation — and
`fallback` — on that route throws `Route is already handled!` from its
synchronous prefix (`assertNotHandled` is each operation's first statement). -/
theorem c4_terminal_once (s s' : RouteState) (op₁ : RouteOp) (res₁ : Option String)
    (hterm : op₁.isTerminal = true) (hok : routeOp op₁ res₁ s = .ok s')
    (op₂ : RouteOp) (res₂ : Option String) :
    routeOp op₂ res₂ s' = .error "Route is already handled!" := by
  have hs' : s' = ⟨false⟩ := by
    cases op₁ <;> rcases s with ⟨_ | _⟩ <;> rcases res₁ with _ | e <;>
      simp_all [routeOp]
  subst hs'
  cases op₂ <;> rcases res₂ with _ | e₂ <;> rfl

/-- Witness for C4: a completed `abort` makes a subsequent `fulfill` throw. -/
theorem c4_terminal_once_witness :
    routeOp .fulfill none ⟨false⟩ = .error "Route is already handled!" :=
  c4_terminal_once ⟨true⟩ ⟨false⟩ .abort none rfl rfl .fulfill none

/-! ## Claim C6 — unencodable values and the fallback -/

/-- C6: serializing a function with no fallback throws `Unexpected value`;
with fallback `null` the function is replaced by null and the rest of the
structure is preserved — `[1, fn, 3]` serializes and parses back to
`[1, null, 3]` — and a fallback that is itself unencodable still fails. -/
theorem c6_fallback :
    serializeValue [Node.fn "() => \x7b\x7d"] 10 (.ref 0) none =
      .error "Unexpected value: () => \x7b\x7d" ∧
    serializeValue [Node.arr [.prim (.num 1), .ref 1, .prim (.num 3)],
        Node.fn "() => \x7b\x7d"] 10 (.ref 0) (some (.prim .null)) =
      .ok (.arr 0 [.nprim 1 (.num 1), .nprim 3 .null, .nprim 4 (.num 3)],
           [.ref 0, .prim (.num 1), .ref 1, .prim .null, .prim (.num 3)]) ∧
    parseSerializedValue [] 10
        (.arr 0 [.nprim 1 (.num 1), .nprim 3 .null, .nprim 4 (.num 3)]) [] =
      .ok (.ref 0, ⟨[Node.arr [.prim (.num 1), .prim .null, .prim (.num 3)]],
                    [(0, .ref 0), (1, .prim (.num 1)), (3, .prim .null),
                     (4, .prim (.num 3))]⟩) ∧
    serializeValue [Node.fn "() => \x7b\x7d", Node.fn "fb"] 10 (.ref 0)
        (some (.ref 1)) =
      .error "Unexpected value: fb" :=
  ⟨rfl, rfl, rfl, rfl⟩

/-! ## Claim C10 — duplicated unencodable value under a fallback -/

/-- C10: serializing `[fn, fn]` with fallback `null` succeeds, but the second
occurrence is emitted as a back-reference to position 1 — the position the
function occupies in the visited list, which no emitted node carries (the
emitted nodes carry positions 0 and 2) — and parsing that output throws
`Unexpected value` instead of returning `[null, null]`. -/
theorem c10_backref_to_fallback :
    serializeValue [Node.arr [.ref 1, .ref 1], Node.fn "() => \x7b\x7d"] 10
        (.ref 0) (some (.prim .null)) =
      .ok (.arr 0 [.nprim 2 .null, .backref 1], [.ref 0, .ref 1, .prim .null]) ∧
    parseSerializedValue [] 10 (.arr 0 [.nprim 2 .null, .backref 1]) [] =
      .error "Unexpected value" :=
  ⟨rfl, rfl⟩

/-! ## Claim C3 — glob to regex -/

/-- C3 counterexample: the claim predicts that a backslash escapes the very
next character (so `a\bc` would compile to `^abc$`) and that every regex
metacharacter outside the listed constructs is quoted (so `[a]` would
compile to `^\[a\]$`).  The code instead skips the escaped character and
emits the one after it, and passes `[` and `]` through unquoted. -/
theorem c3_counterexample :
    globToRegex "a\\bc" = "^acc$" ∧ "^acc$" ≠ "^abc$" ∧
    globToRegex "[a]" = "^[a]$" ∧ "^[a]$" ≠ "^\\[a\\]$" :=
  ⟨rfl, by decide, rfl, by decide⟩

/-- C3 (amended): globToRegex maps a path-segment-delimited `**` to the
path-crossing wildcard `((?:[^/]*(?:/|$))*)`, a single `*` to the
segment-local wildcard `([^/]*)`, `?` to `.`, a brace group to an
alternation; `[` and `]` pass through unquoted; a backslash consumes the
following character and emits the character after the pair (escaped when it
is a regex syntax character, nothing when the read runs past the end, and the
emitted character is then processed again), while a trailing backslash
escapes itself; every regex syntax character outside these constructs is
quoted and every other character maps to itself. -/
theorem c3_glob_mapping (c : Char)
    (hc : c ∉ (['\\', '*', '?', '[', ']', '\x7b', '\x7d', ','] : List Char)) :
    globToRegex "**" = "^((?:[^/]*(?:/|$))*)$" ∧
    globToRegex "**/a" = "^((?:[^/]*(?:/|$))*)a$" ∧
    globToRegex "a/**/b" = "^a/((?:[^/]*(?:/|$))*)b$" ∧
    globToRegex "a*b" = "^a([^/]*)b$" ∧
    globToRegex "?" = "^.$" ∧
    globToRegex "\x7ba,b\x7d" = "^(a|b)$" ∧
    globToRegex "[ab]" = "^[ab]$" ∧
    globToRegex "a\\bc" = "^acc$" ∧
    globToRegex "\\*" = "^$" ∧
    globToRegex "a\\" = "^a\\\\$" ∧
    globToRegex "a.b" = "^a\\.b$" ∧
    globToRegex (String.singleton c) = "^" ++ escRegex c ++ "$" := by
  refine ⟨rfl, rfl, rfl, rfl, rfl, rfl, rfl, rfl, rfl, rfl, rfl, ?_⟩
  have h1 : ¬ c = '\\' := fun h => hc (by simp [h])
  have h2 : ¬ c = '*' := fun h => hc (by simp [h])
  have h3 : ¬ c = '?' := fun h => hc (by simp [h])
  have h4 : ¬ c = '[' := fun h => hc (by simp [h])
  have h5 : ¬ c = ']' := fun h => hc (by simp [h])
  have h6 : ¬ c = '\x7b' := fun h => hc (by simp [h])
  have h7 : ¬ c = '\x7d' := fun h => hc (by simp [h])
  have h8 : ¬ c = ',' := fun h => hc (by simp [h])
  have htl : (String.singleton c).toList = [c] := rfl
  have hlen : (String.singleton c).length = 1 := rfl
  rw [globToRegex, htl, hlen]
  simp [globTokens, h1, h2, h3, h4, h5, h6, h7, h8, String.join]

/-- Witness for C3 at the concrete character `x`. -/
theorem c3_glob_mapping_witness : globToRegex "x" = "^x$" :=
  ((c3_glob_mapping 'x' (by decide)).2.2.2.2.2.2.2.2.2.2.2).trans (by rfl)

/-! ## findIdx? helper lemmas -/

/-- Characterization of a successful `findIdx?` (generalized over the start
index). -/
theorem findIdx?_start_some {α : Type} (p : α → Bool) :
    ∀ (l : List α) (s j : Nat), List.findIdx? p l s = some j →
      ∃ k, j = s + k ∧ k < l.length ∧ ∃ x, l.get? k = some x ∧ p x = true := by
  intro l
  induction l with
  | nil => intro s j h; simp [List.findIdx?] at h
  | cons x xs ih =>
    intro s j h
    rw [List.findIdx?_cons] at h
    by_cases hx : p x = true
    · rw [if_pos hx] at h
      injection h with h'
      exact ⟨0, by omega, by simp, x, rfl, hx⟩
    · rw [if_neg hx] at h
      obtain ⟨k, hk, hlt, y, hy, hp⟩ := ih (s + 1) j h
      refine ⟨k + 1, by omega, ?_, y, ?_, hp⟩
      · rw [List.length_cons]
        omega
      · rw [List.get?_cons_succ]
        exact hy

/-- A successful `findIdx?` yields an in-bounds index whose element satisfies
the predicate. -/
theorem findIdx?_some_facts {α : Type} (p : α → Bool) (l : List α) (j : Nat)
    (h : l.findIdx? p = some j) :
    j < l.length ∧ ∃ x, l.get? j = some x ∧ p x = true := by
  obtain ⟨k, hk, hlt, hx⟩ := findIdx?_start_some p l 0 j h
  have hk' : k = j := by omega
  subst hk'
  exact ⟨hlt, hx⟩

/-- A member satisfying the predicate makes `findIdx?` succeed. -/
theorem findIdx?_some_of_mem {α : Type} (p : α → Bool) (l : List α) (x : α)
    (hx : x ∈ l) (hp : p x = true) : ∃ j, l.findIdx? p = some j := by
  rcases h : l.findIdx? p with _ | j
  · rw [List.findIdx?_eq_none_iff] at h
    exact absurd (h x hx) (by simp [hp])
  · exact ⟨j, rfl⟩

/-! ## Claim C8 — host bypass marker and missing client -/

/-- C8: the universal route handler performs an immediate `continue` with the
marker stripped (no frame is forwarded) whenever the request headers contain
the `bypass-<uuid>: true` marker, and a plain unmodified `continue` when no
bridge client is attached or its socket is not open. -/
theorem c8_bypass_and_no_client (uuid : String) (client : Option Nat) (rl : Nat)
    (headers : List (String × String)) (hasBody : Bool) :
    (∀ nv ∈ headers, nv.1 = "bypass-" ++ uuid → nv.2 = "true" →
      ∃ idx,
        headers.findIdx? (fun nv => nv.1 == "bypass-" ++ uuid && nv.2 == "true") =
          some idx ∧
        wsServerHandler uuid client rl headers hasBody =
          .continueWithHeaders (buildHeaderRecord (headers.eraseIdx idx))) ∧
    (headers.findIdx? (fun nv => nv.1 == "bypass-" ++ uuid && nv.2 == "true") = none →
      (client = none ∨ ∃ st, client = some st ∧ st ≠ wsOPEN) →
      wsServerHandler uuid client rl headers hasBody = .continuePlain) := by
  constructor
  · intro nv hmem h1 h2
    obtain ⟨j, hj⟩ :=
      findIdx?_some_of_mem (fun nv => nv.1 == "bypass-" ++ uuid && nv.2 == "true")
        headers nv hmem (by simp [h1, h2])
    exact ⟨j, hj, by simp [wsServerHandler, hj]⟩
  · intro hnone hclient
    rcases hclient with h | ⟨st, hst, hne⟩
    · subst h
      simp [wsServerHandler, hnone]
    · subst hst
      simp [wsServerHandler, hnone, hne]

/-- Witness for C8: a bypass-marked request is continued with the marker
stripped, and a request with no client attached is continued unmodified. -/
theorem c8_bypass_and_no_client_witness :
    wsServerHandler "u" (some 1) 0 [("bypass-u", "true"), ("a", "1")] false =
      .continueWithHeaders [("a", "1")] ∧
    wsServerHandler "u" none 0 [("a", "1")] false = .continuePlain := by
  constructor
  · obtain ⟨idx, hidx, hres⟩ :=
      (c8_bypass_and_no_client "u" (some 1) 0 [("bypass-u", "true"), ("a", "1")] false).1
        ("bypass-u", "true") (by decide) (by decide) (by decide)
    have h0 : idx = 0 := by
      have : ([("bypass-u", "true"), ("a", "1")] : List (String × String)).findIdx?
          (fun nv => nv.1 == "bypass-" ++ "u" && nv.2 == "true") = some 0 := by decide
      rw [this] at hidx
      exact (Option.some_injective _ hidx.symm)
    subst h0
    exact hres.trans (by rfl)
  · exact (c8_bypass_and_no_client "u" none 0 [("a", "1")] false).2 (by decide) (Or.inl rfl)

/-! ## Claim C9 — the target vector is append-only -/

/-- `registerProps` only appends to the target vector. -/
theorem registerProps_appends (store : Store) (targets : List (Option JSVal)) :
    ∀ props, ∃ Δ, (registerProps store targets props).2.1 = targets ++ Δ := by
  intro props
  induction props generalizing store targets with
  | nil => exact ⟨[], by simp [registerProps]⟩
  | cons kv rest ih =>
    rcases kv with ⟨k, v⟩
    obtain ⟨Δ, hΔ⟩ :=
      ih (store ++ [Node.arr [.prim (.str k), .prim (.num (targets.length : Rat))]])
        (targets ++ [some v])
    refine ⟨some v :: Δ, ?_⟩
    simp only [registerProps, createHandleID]
    simpa using hΔ

/-- C9: the host's target vector is append-only.  Registration
(`createHandleID`) appends at the end and returns the new highest id;
`dispose` empties the slot without shrinking the vector; every other handle
action only appends; and an operation on an absent slot reports an error
whose message says "disposed" when the id is below the current length and
"internal error" when the id was never allocated. -/
theorem c9_append_only (fnSem : FnSem) (fuel : Nat) (store : Store)
    (targets : List (Option JSVal)) (meta : HandleMeta) :
    (∀ t, createHandleID targets t = (targets ++ [some t], targets.length)) ∧
    (meta.action = .dispose → ∀ t, targets.get? meta.id = some (some t) →
      (handleHandleMessage fnSem fuel store targets meta).2.1 = targets.set meta.id none ∧
      (handleHandleMessage fnSem fuel store targets meta).2.1.length = targets.length) ∧
    (meta.action ≠ .dispose →
      ∃ Δ, (handleHandleMessage fnSem fuel store targets meta).2.1 = targets ++ Δ) ∧
    (targets.get? meta.id = some none ∨ targets.get? meta.id = none →
      (handleHandleMessage fnSem fuel store targets meta).2.2.error = true ∧
      (handleHandleMessage fnSem fuel store targets meta).1 =
        store ++ [Node.error "Error"
          ("Unexpected handle, most likely " ++
            (if meta.id < targets.length then "disposed" else "internal error"))
          (.prim .undefined) none] ∧
      ∀ f, fuel = f + 2 →
        (handleHandleMessage fnSem fuel store targets meta).2.2.result =
          .ok (.err 0 "Error"
            ("Unexpected handle, most likely " ++
              (if meta.id < targets.length then "disposed" else "internal error"))
            (some (.sent 1 .undefined)) none)) := by
  obtain ⟨id, rid, action⟩ := meta
  refine ⟨fun t => rfl, ?_, ?_, ?_⟩
  · rintro rfl t ht
    rw [List.get?_eq_getElem?] at ht
    simp [handleHandleMessage, ht, List.length_set]
  · intro hact
    cases haction : action with
    | dispose => exact absurd haction hact
    | jsonValue =>
      rcases ht : targets[id]? with _ | mt
      · exact ⟨[], by simp [handleHandleMessage, ht]⟩
      · rcases mt with _ | t
        · exact ⟨[], by simp [handleHandleMessage, ht]⟩
        · exact ⟨[], by simp [handleHandleMessage, ht]⟩
    | getProperty name =>
      rcases ht : targets[id]? with _ | mt
      · exact ⟨[], by simp [handleHandleMessage, ht]⟩
      · rcases mt with _ | t
        · exact ⟨[], by simp [handleHandleMessage, ht]⟩
        · exact ⟨[some (jsGetProp store t name)],
            by simp [handleHandleMessage, ht, createHandleID]⟩
    | getProperties =>
      rcases ht : targets[id]? with _ | mt
      · exact ⟨[], by simp [handleHandleMessage, ht]⟩
      rcases mt with _ | t
      · exact ⟨[], by simp [handleHandleMessage, ht]⟩
      rcases t with p | a
      · cases p <;>
          exact ⟨[], by simp [handleHandleMessage, ht, jsEntries, registerProps]⟩
      · obtain ⟨Δ, hΔ⟩ := registerProps_appends store targets (jsEntries store (.ref a))
        exact ⟨Δ, by simp [handleHandleMessage, ht, hΔ]⟩
    | evaluate fn arg h =>
      rcases ht : targets[id]? with _ | mt
      · exact ⟨[], by simp [handleHandleMessage, ht]⟩
      rcases mt with _ | t
      · exact ⟨[], by simp [handleHandleMessage, ht]⟩
      rcases hparse : parseSerializedValue targets fuel arg store with e | pr
      · exact ⟨[], by simp [handleHandleMessage, ht, hparse]⟩
      obtain ⟨arg', st'⟩ := pr
      rcases happ : fnSem st'.out t arg' with ⟨store₂, res⟩
      rcases res with thrown | returned
      · exact ⟨[], by simp [handleHandleMessage, ht, hparse, happ]⟩
      · cases h with
        | false => exact ⟨[], by simp [handleHandleMessage, ht, hparse, happ]⟩
        | true =>
          exact ⟨[some returned],
            by simp [handleHandleMessage, ht, hparse, happ, createHandleID]⟩
  · intro habsent
    have hstep :
        handleHandleMessage fnSem fuel store targets ⟨id, rid, action⟩ =
          (store ++ [Node.error "Error"
              ("Unexpected handle, most likely " ++
                (if id < targets.length then "disposed" else "internal error"))
              (.prim .undefined) none],
           targets,
           ⟨id, rid,
            ((serializeValue
                (store ++ [Node.error "Error"
                  ("Unexpected handle, most likely " ++
                    (if id < targets.length then "disposed" else "internal error"))
                  (.prim .undefined) none])
                fuel (.ref store.length) (some (.prim .null))).map Prod.fst),
            true⟩) := by
      rcases habsent with h | h <;> rw [List.get?_eq_getElem?] at h <;>
        simp [handleHandleMessage, h]
    refine ⟨by rw [hstep], by rw [hstep], ?_⟩
    rintro f rfl
    rw [hstep]
    simp only [serializeValue, innerSerializeValue, List.findIdx?, List.get?_concat_length]
    rfl

/-- Witness for C9: concrete registration, dispose, and absent-slot error. -/
theorem c9_append_only_witness :
    createHandleID [some (.prim .null)] (.prim (.num 7)) =
      ([some (.prim .null), some (.prim (.num 7))], 1) ∧
    (handleHandleMessage (fun st _ _ => (st, .ok (.prim .null))) 5 []
      [some (.prim .null)] ⟨0, 0, .dispose⟩).2.1 = [none] ∧
    (handleHandleMessage (fun st _ _ => (st, .ok (.prim .null))) 5 []
      [some (.prim .null), none] ⟨1, 0, .jsonValue⟩).2.2.error = true := by
  refine ⟨?_, ?_, ?_⟩
  · exact ((c9_append_only (fun st _ _ => (st, .ok (.prim .null))) 5 []
      [some (.prim .null)] ⟨0, 0, .dispose⟩).1 (.prim (.num 7))).trans (by rfl)
  · have h := (c9_append_only (fun st _ _ => (st, .ok (.prim .null))) 5 []
      [some (.prim .null)] ⟨0, 0, .dispose⟩).2.1 rfl (.prim .null) (by rfl)
    exact h.1.trans (by rfl)
  · have h := (c9_append_only (fun st _ _ => (st, .ok (.prim .null))) 5 []
      [some (.prim .null), none] ⟨1, 0, .jsonValue⟩).2.2.2 (Or.inl (by rfl))
    exact h.1

/-! ## Claim C7 — handle `evaluate` semantics on the host -/

/-- C7: for an `evaluate` handle message on a live slot, the host parses the
argument against the current target vector and applies the (abstracted)
compiled function to `(target, arg)`.  When `h` is set, the result is
registered at the end of the target vector and the reply carries the new id
as a plain number node; otherwise the reply carries the result serialized
with fallback `null`; and a thrown value is serialized (non-Error throws as
their string form) and reported with `error := true`. -/
theorem c7_evaluate (fnSem : FnSem) (f : Nat) (store store₂ : Store)
    (targets : List (Option JSVal)) (id rid : Nat) (fn : String) (arg : SVal)
    (h : Bool) (target arg' : JSVal) (st' : PSt)
    (htarget : targets.get? id = some (some target))
    (hparse : parseSerializedValue targets (f + 1) arg store = .ok (arg', st')) :
    (∀ returned, fnSem st'.out target arg' = (store₂, .ok returned) → h = true →
      handleHandleMessage fnSem (f + 1) store targets ⟨id, rid, .evaluate fn arg h⟩ =
        (store₂, targets ++ [some returned],
         ⟨id, rid, .ok (.nprim 0 (.num (targets.length : Rat))), false⟩)) ∧
    (∀ returned, fnSem st'.out target arg' = (store₂, .ok returned) → h = false →
      handleHandleMessage fnSem (f + 1) store targets ⟨id, rid, .evaluate fn arg h⟩ =
        (store₂, targets,
         ⟨id, rid,
          (serializeValue store₂ (f + 1) returned (some (.prim .null))).map Prod.fst,
          false⟩)) ∧
    (∀ thrown, fnSem st'.out target arg' = (store₂, .error thrown) →
      handleHandleMessage fnSem (f + 1) store targets ⟨id, rid, .evaluate fn arg h⟩ =
        (store₂, targets,
         ⟨id, rid,
          (serializeValue store₂ (f + 1)
            (if isErrorInstance store₂ thrown then thrown
             else .prim (.str (jsToString store₂ thrown)))
            (some (.prim .null))).map Prod.fst,
          true⟩)) := by
  rw [List.get?_eq_getElem?] at htarget
  refine ⟨?_, ?_, ?_⟩
  · intro returned happ hh
    subst hh
    simp [handleHandleMessage, htarget, hparse, happ, createHandleID,
      serializeValue, innerSerializeValue, List.findIdx?, Except.map]
  · intro returned happ hh
    subst hh
    simp [handleHandleMessage, htarget, hparse, happ]
  · intro thrown happ
    simp [handleHandleMessage, htarget, hparse, happ]

/-- Witness for C7: a concrete evaluate exchange with `h` set. -/
theorem c7_evaluate_witness :
    handleHandleMessage (fun st _ _ => (st, .ok (.prim (.num 7)))) 5 []
      [some (.prim (.str "page"))] ⟨0, 3, .evaluate "fn" (.sent 0 .undefined) true⟩ =
      ([], [some (.prim (.str "page")), some (.prim (.num 7))],
       ⟨0, 3, .ok (.nprim 0 (.num 1)), false⟩) := by
  have h := (c7_evaluate (fun st _ _ => (st, .ok (.prim (.num 7)))) 4 [] []
    [some (.prim (.str "page"))] 0 3 "fn" (.sent 0 .undefined) true
    (.prim (.str "page")) (.prim .undefined) ⟨[], [(0, .prim .undefined)]⟩
    (by rfl) (by rfl)).1 (.prim (.num 7)) (by rfl) rfl
  exact h.trans (by rfl)

/-! ## Claim C5 — LIFO route dispatch on the browser side -/

/-- The prefix of the matching handler ids that actually get invoked: every
handler up to and including the first whose callback is terminal. -/
def upToFirstTerminal (dec : Nat → Bool) : List Nat → List Nat
  | [] => []
  | i :: rest => if dec i then [i] else i :: upToFirstTerminal dec rest

/-- The invocation order is the matching stack order, cut at the first
terminal handler. -/
theorem runHandlers_trace_ids (dec : Nat → Bool) :
    ∀ (pending routes : List ClientRouteHandler),
      ((runHandlers dec pending routes).2.1).map (fun e => e.1) =
        upToFirstTerminal dec (pending.map ClientRouteHandler.hid) := by
  intro pending
  induction pending with
  | nil => intro routes; rfl
  | cons h rest ih =>
    intro routes
    by_cases hdec : dec h.hid = true
    · simp [runHandlers, upToFirstTerminal, hdec]
    · have hdec' : dec h.hid = false := by simpa using hdec
      simp [runHandlers, upToFirstTerminal, hdec', ih]

/-- When no pending handler is terminal, the dispatch ends in the plain
inner continue. -/
theorem runHandlers_inner_continue (dec : Nat → Bool) :
    ∀ (pending routes : List ClientRouteHandler),
      (∀ h ∈ pending, dec h.hid = false) →
      (runHandlers dec pending routes).2.2 = .innerContinue := by
  intro pending
  induction pending with
  | nil => intro routes _; rfl
  | cons h rest ih =>
    intro routes hall
    have hh := hall h (by simp)
    simp [runHandlers, hh, ih _ (fun x hx => hall x (by simp [hx]))]

/-- Removing a handler keeps a sublist of the identities. -/
theorem removeFirstHandler_ids_sublist (hid : Nat) :
    ∀ routes : List ClientRouteHandler,
      ((removeFirstHandler routes hid).map ClientRouteHandler.hid).Sublist
        (routes.map ClientRouteHandler.hid) := by
  intro routes
  induction routes with
  | nil => simp [removeFirstHandler]
  | cons r rest ih =>
    by_cases hr : r.hid = hid
    · simp [removeFirstHandler, hr]
    · simpa [removeFirstHandler, hr] using ih.cons₂ r.hid

/-- `splice(indexOf(handler), 1)` keeps a sublist of the identities. -/
theorem spliceOutHandler_ids_sublist (routes : List ClientRouteHandler) (hid : Nat) :
    ((spliceOutHandler routes hid).map ClientRouteHandler.hid).Sublist
      (routes.map ClientRouteHandler.hid) := by
  unfold spliceOutHandler
  by_cases hmem : routes.any (fun r => r.hid = hid) = true
  · simpa [hmem] using removeFirstHandler_ids_sublist hid routes
  · have hmem' : routes.any (fun r => r.hid = hid) = false := by simpa using hmem
    simpa [hmem'] using (List.dropLast_sublist routes).map ClientRouteHandler.hid

/-- With distinct identities, removing a handler removes it completely. -/
theorem not_mem_removeFirstHandler (hid : Nat) :
    ∀ routes : List ClientRouteHandler,
      (routes.map ClientRouteHandler.hid).Nodup →
      hid ∉ (removeFirstHandler routes hid).map ClientRouteHandler.hid := by
  intro routes
  induction routes with
  | nil => intro _; simp [removeFirstHandler]
  | cons r rest ih =>
    intro hnd
    rw [List.map_cons, List.nodup_cons] at hnd
    by_cases hr : r.hid = hid
    · subst hr
      simpa [removeFirstHandler] using hnd.1
    · have hsub := removeFirstHandler_ids_sublist hid rest
      simp only [removeFirstHandler, hr, if_false, List.map_cons, List.mem_cons]
      rintro (h | h)
      · exact hr h.symm
      · exact ih hnd.2 h

/-- With distinct identities, after the splice the handler is gone. -/
theorem not_mem_spliceOutHandler (routes : List ClientRouteHandler) (hid : Nat)
    (hnd : (routes.map ClientRouteHandler.hid).Nodup) :
    hid ∉ (spliceOutHandler routes hid).map ClientRouteHandler.hid := by
  unfold spliceOutHandler
  by_cases hmem : routes.any (fun r => r.hid = hid) = true
  · simpa [hmem] using not_mem_removeFirstHandler hid routes hnd
  · have habs : hid ∉ routes.map ClientRouteHandler.hid := by
      intro hin
      obtain ⟨r, hr, hrid⟩ := List.mem_map.mp hin
      exact hmem (List.any_eq_true.mpr ⟨r, hr, by simp [hrid]⟩)
    have hmem' : routes.any (fun r => r.hid = hid) = false := by
      simpa using hmem
    intro hin
    exact habs
      (((List.dropLast_sublist routes).map ClientRouteHandler.hid).subset
        (by simpa [hmem'] using hin))

/-- The stack-count bump preserves the identity list. -/
theorem bump_map_ids (routes : List ClientRouteHandler) (hid : Nat) :
    ((routes.map (fun r => if r.hid = hid then bumpHandled r else r)).map
      ClientRouteHandler.hid) = routes.map ClientRouteHandler.hid := by
  induction routes with
  | nil => rfl
  | cons r rest ih =>
    simp only [List.map_cons]
    rw [ih]
    by_cases hr : r.hid = hid <;> simp [hr, bumpHandled]

/-- An expiring handler is out of the stack by the time it is invoked. -/
theorem runHandlers_removed_before_invoked (dec : Nat → Bool) :
    ∀ (pending routes : List ClientRouteHandler),
      (routes.map ClientRouteHandler.hid).Nodup →
      ∀ ev ∈ (runHandlers dec pending routes).2.1, ev.2.1 = true → ev.1 ∉ ev.2.2 := by
  intro pending
  induction pending with
  | nil => intro routes _ ev hev; simp [runHandlers] at hev
  | cons h rest ih =>
    intro routes hnd ev hev hexp
    have hnd₂ :
        (((if h.willExpire then spliceOutHandler routes h.hid else routes).map
            (fun r => if r.hid = h.hid then bumpHandled r else r)).map
              ClientRouteHandler.hid).Nodup := by
      rw [bump_map_ids]
      by_cases hwe : h.willExpire <;> simp only [hwe, if_true, if_false]
      · exact (spliceOutHandler_ids_sublist routes h.hid).nodup hnd
      · exact hnd
    by_cases hdec : dec h.hid = true
    · have hev' : ev = (h.hid, h.willExpire,
          ((if h.willExpire then spliceOutHandler routes h.hid else routes).map
            ClientRouteHandler.hid)) := by
        simpa [runHandlers, hdec] using hev
      subst hev'
      have hwe : h.willExpire = true := hexp
      simp only [hwe, if_true] at *
      simpa using not_mem_spliceOutHandler routes h.hid hnd
    · have hdec' : dec h.hid = false := by simpa using hdec
      rw [show (runHandlers dec (h :: rest) routes).2.1 =
          (h.hid, h.willExpire,
            ((if h.willExpire then spliceOutHandler routes h.hid else routes).map
              ClientRouteHandler.hid)) ::
          (runHandlers dec rest
            ((if h.willExpire then spliceOutHandler routes h.hid else routes).map
              (fun r => if r.hid = h.hid then bumpHandled r else r))).2.1 by
        simp [runHandlers, hdec']] at hev
      rcases List.mem_cons.mp hev with hev' | hev'
      · subst hev'
        have hwe : h.willExpire = true := hexp
        simp only [hwe, if_true] at *
        simpa using not_mem_spliceOutHandler routes h.hid hnd
      · exact ih _ hnd₂ ev hev' hexp

/-- C5: route dispatch on the browser side.  Registration is LIFO
(`addRoute` prepends), the matching handlers are gathered from the stack in
order and invoked until the first terminal one, an expiring handler
(`handledCount + 1 >= times`) is removed from the stack before its callback
runs, and when no matching handler is terminal the client finishes with the
plain inner continue. -/
theorem c5_dispatch (dec : Nat → Bool) (routes : List ClientRouteHandler)
    (url : String) (hnd : (routes.map ClientRouteHandler.hid).Nodup) :
    (∀ (h : ClientRouteHandler) (rs : List ClientRouteHandler),
      addRoute h rs = h :: rs) ∧
    ((handleRouteMessage dec routes url).2.1.map (fun e => e.1) =
      upToFirstTerminal dec
        ((routes.filter (fun r => r.matchesURL url)).map ClientRouteHandler.hid)) ∧
    (∀ ev ∈ (handleRouteMessage dec routes url).2.1, ev.2.1 = true → ev.1 ∉ ev.2.2) ∧
    ((∀ h ∈ routes, h.matchesURL url = true → dec h.hid = false) →
      (handleRouteMessage dec routes url).2.2 = .innerContinue) := by
  refine ⟨fun h rs => rfl, ?_, ?_, ?_⟩
  · exact runHandlers_trace_ids dec _ routes
  · exact fun ev hev => runHandlers_removed_before_invoked dec _ routes hnd ev hev
  · intro hall
    apply runHandlers_inner_continue
    intro h hh
    have hm := List.mem_filter.mp hh
    exact hall h hm.1 (by simpa using hm.2)

/-- Witness for C5: two stacked always-matching handlers, neither terminal =>
both invoked in stack order and the request ends in the inner continue. -/
theorem c5_dispatch_witness :
    ((handleRouteMessage (fun _ => false)
      [⟨0, fun _ => true, 0, some 1⟩, ⟨1, fun _ => true, 0, none⟩] "u").2.1.map
        (fun e => e.1) = [0, 1]) ∧
    (handleRouteMessage (fun _ => false)
      [⟨0, fun _ => true, 0, some 1⟩, ⟨1, fun _ => true, 0, none⟩] "u").2.2 =
      .innerContinue := by
  have h := c5_dispatch (fun _ => false)
    [⟨0, fun _ => true, 0, some 1⟩, ⟨1, fun _ => true, 0, none⟩] "u" (by decide)
  exact ⟨h.2.1.trans (by rfl), h.2.2.2 (fun _ _ _ => rfl)⟩

/-! ## Claim C1 — round-trip: infrastructure

Helper lemmas about the `refs` map, the decimal bigint encoding, and
monotonicity of the correspondence relations, leading to the round-trip
invariant. -/

theorem refsGet?_set_self (refs : List (Nat × JSVal)) (k : Nat) (v : JSVal) :
    refsGet? (refsSet refs k v) k = some v := by
  induction refs with
  | nil => simp [refsSet, refsGet?]
  | cons kv rest ih =>
    rcases kv with ⟨k', v'⟩
    by_cases hk : k' = k <;> simp [refsSet, refsGet?, hk, ih]

theorem refsGet?_set_ne (refs : List (Nat × JSVal)) (k k' : Nat) (v : JSVal)
    (h : k' ≠ k) : refsGet? (refsSet refs k v) k' = refsGet? refs k' := by
  induction refs with
  | nil =>
    simp only [refsSet, refsGet?]
    rw [if_neg (Ne.symm h)]
  | cons kv rest ih =>
    rcases kv with ⟨k'', v''⟩
    simp only [refsSet]
    by_cases hk : k'' = k
    · subst hk
      simp only [if_pos rfl, refsGet?]
      rw [if_neg (Ne.symm h), if_neg (Ne.symm h)]
    · rw [if_neg hk]
      by_cases hk2 : k'' = k' <;> simp [refsGet?, hk2, ih]

/-- JavaScript assignment appends when the key is fresh. -/
theorem jsObjSet_append (acc : List (String × JSVal)) (k : String) (v : JSVal)
    (h : ∀ kv ∈ acc, kv.1 ≠ k) : jsObjSet acc k v = acc ++ [(k, v)] := by
  induction acc with
  | nil => rfl
  | cons kv rest ih =>
    rcases kv with ⟨k', v'⟩
    have hk : k' ≠ k := h (k', v') (by simp)
    simp [jsObjSet, hk, ih (fun kv hkv => h kv (by simp [hkv]))]

theorem charDigit_digitChar (d : Nat) (h : d < 10) : charDigit (digitChar d) = d := by
  interval_cases d <;> rfl

theorem digitChar_ne_dash (d : Nat) : digitChar d ≠ '-' := by
  unfold digitChar
  split <;> decide

/-- The big-endian fold inverts `Nat.digits`. -/
theorem foldl_digits (l : List Nat) (hd : ∀ d ∈ l, d < 10) (acc : Nat) :
    ((l.map digitChar).foldl (fun acc c => acc * 10 + charDigit c) acc) =
      acc * 10 ^ l.length + Nat.ofDigits 10 l.reverse := by
  induction l generalizing acc with
  | nil => simp
  | cons d rest ih =>
    have hd0 : d < 10 := hd d (by simp)
    have hrest : ∀ x ∈ rest, x < 10 := fun x hx => hd x (by simp [hx])
    simp only [List.map_cons, List.foldl_cons, charDigit_digitChar d hd0,
      List.reverse_cons, List.length_cons]
    rw [ih hrest]
    rw [Nat.ofDigits_append]
    simp [Nat.ofDigits]
    ring

/-- The decimal rendering of a natural number parses back. -/
theorem decCharsToNat_natToDecString (n : Nat) :
    decCharsToNat (natToDecString n).toList = n := by
  by_cases h0 : n = 0
  · subst h0; rfl
  · have hchars : (natToDecString n).toList =
        (Nat.digits 10 n).reverse.map digitChar := by
      simp [natToDecString, h0, List.asString]
    rw [hchars]
    unfold decCharsToNat
    rw [foldl_digits _ (fun d hd => Nat.digits_lt_base (by norm_num)
      (by simpa using hd)) 0]
    simp [Nat.ofDigits_digits]

/-- The head of a natural number's decimal rendering is a digit, not a dash. -/
theorem natToDecString_head (n : Nat) :
    ∃ c cs, (natToDecString n).toList = c :: cs ∧ c ≠ '-' := by
  by_cases h0 : n = 0
  · exact ⟨'0', [], by simp [h0, natToDecString], by decide⟩
  · have hne : Nat.digits 10 n ≠ [] := Nat.digits_ne_nil_iff_ne_zero.mpr h0
    have hchars : (natToDecString n).toList =
        (Nat.digits 10 n).reverse.map digitChar := by
      simp [natToDecString, h0, List.asString]
    rcases hrev : (Nat.digits 10 n).reverse with _ | ⟨d, ds⟩
    · exact absurd (by simpa using hrev) hne
    · refine ⟨digitChar d, ds.map digitChar, ?_, digitChar_ne_dash d⟩
      rw [hchars, hrev]
      simp

/-- `decStringToInt` ignores the sign branch when the head is not a dash. -/
theorem decStringToInt_head_ne (s : String) (c : Char) (cs : List Char)
    (h : s.toList = c :: cs) (hc : c ≠ '-') :
    decStringToInt s = (decCharsToNat s.toList : Int) := by
  unfold decStringToInt
  rw [h]
  split
  · next rest heq =>
    have h1 : c = '-' := by
      have := congrArg List.head? heq
      simpa using this
    exact absurd h1 hc
  · rfl

/-- The decimal string round trip: `BigInt(bigint.toString())` is the
identity on the model integers. -/
theorem decStringToInt_intToDecString (i : Int) :
    decStringToInt (intToDecString i) = i := by
  cases i with
  | ofNat n =>
    obtain ⟨c, cs, hl, hc⟩ := natToDecString_head n
    rw [show intToDecString (Int.ofNat n) = natToDecString n from rfl,
      decStringToInt_head_ne _ c cs hl hc, decCharsToNat_natToDecString n]
    rfl
  | negSucc n =>
    have htl : (intToDecString (Int.negSucc n)).toList =
        '-' :: (natToDecString (n + 1)).toList := rfl
    unfold decStringToInt
    rw [htl]
    show -(decCharsToNat (natToDecString (n + 1)).toList : Int) = Int.negSucc n
    rw [decCharsToNat_natToDecString (n + 1)]
    simp [Int.negSucc_eq]

/-- Correspondence is monotone in the pointer relation. -/
theorem ValCorrP_mono {r r' : Nat → Nat → Prop} (hr : ∀ a b, r a b → r' a b) :
    ∀ v w, ValCorrP r v w → ValCorrP r' v w
  | .prim _, .prim _, h => h
  | .ref a, .ref b, h => hr a b h

theorem ValsCorrP_mono {r r' : Nat → Nat → Prop} (hr : ∀ a b, r a b → r' a b) :
    ∀ vs ws, ValsCorrP r vs ws → ValsCorrP r' vs ws
  | [], [], h => h
  | _ :: vs, _ :: ws, h =>
    ⟨ValCorrP_mono hr _ _ h.1, ValsCorrP_mono hr vs ws h.2⟩

theorem PropsCorrP_mono {r r' : Nat → Nat → Prop} (hr : ∀ a b, r a b → r' a b) :
    ∀ vs ws, PropsCorrP r vs ws → PropsCorrP r' vs ws
  | [], [], h => h
  | (_, _) :: vs, (_, _) :: ws, h =>
    ⟨h.1, ValCorrP_mono hr _ _ h.2.1, PropsCorrP_mono hr vs ws h.2.2⟩

theorem NodeMatchP_mono {r r' : Nat → Nat → Prop} (hr : ∀ a b, r a b → r' a b) :
    ∀ n₁ n₂, NodeMatchP r n₁ n₂ → NodeMatchP r' n₁ n₂
  | .url _, .url _, h => h
  | .date _, .date _, h => h
  | .regexp _ _, .regexp _ _, h => h
  | .error _ _ _ _, .error _ _ _ _, h =>
    ⟨h.1, h.2.1, ValCorrP_mono hr _ _ h.2.2.1, h.2.2.2⟩
  | .arr _, .arr _, h => ValsCorrP_mono hr _ _ h
  | .obj _, .obj _, h => PropsCorrP_mono hr _ _ h
  | .handle _, .handle _, h => h
  | .fn _, .fn _, h => h

/-- The pointer pair established at some position of a run. -/
def pairMem (visited : List JSVal) (refs : List (Nat × JSVal)) (a b : Nat) : Prop :=
  ∃ i, visited.get? i = some (.ref a) ∧ refsGet? refs i = some (.ref b)

/-- The parse `refs` map only ever gains bindings. -/
def refsExtends (refs refs' : List (Nat × JSVal)) : Prop :=
  ∀ k w, refsGet? refs k = some w → refsGet? refs' k = some w

theorem refsExtends_refl (refs : List (Nat × JSVal)) : refsExtends refs refs :=
  fun _ _ h => h

theorem refsExtends_trans {r₁ r₂ r₃ : List (Nat × JSVal)}
    (h₁ : refsExtends r₁ r₂) (h₂ : refsExtends r₂ r₃) : refsExtends r₁ r₃ :=
  fun k w h => h₂ k w (h₁ k w h)

/-- A fresh binding extends the map. -/
theorem refsExtends_set (refs : List (Nat × JSVal)) (k : Nat) (v : JSVal)
    (h : refsGet? refs k = none) : refsExtends refs (refsSet refs k v) := by
  intro k' w hw
  have hne : k' ≠ k := fun he => by rw [he, h] at hw; exact Option.noConfusion hw
  rw [refsGet?_set_ne refs k k' v hne]
  exact hw

theorem pairMem_mono {visited visited' : List JSVal}
    {refs refs' : List (Nat × JSVal)} (δ : List JSVal)
    (hvis : visited' = visited ++ δ) (hrefs : refsExtends refs refs') :
    ∀ a b, pairMem visited refs a b → pairMem visited' refs' a b := by
  rintro a b ⟨i, hv, hr⟩
  refine ⟨i, ?_, hrefs i _ hr⟩
  subst hvis
  rw [List.get?_append (by
    have := List.get?_eq_some.mp hv
    exact this.1)]
  exact hv

/-- The output heap only grows, and already-written slots never change
under a parse step. -/
def OutPres (out out' : Store) : Prop :=
  out.length ≤ out'.length ∧ ∀ b, b < out.length → out'.get? b = out.get? b

theorem OutPres_refl (out : Store) : OutPres out out := ⟨le_refl _, fun _ _ => Eq.refl _⟩

theorem OutPres_trans {o₁ o₂ o₃ : Store} (h₁ : OutPres o₁ o₂) (h₂ : OutPres o₂ o₃) :
    OutPres o₁ o₃ :=
  ⟨le_trans h₁.1 h₂.1, fun b hb => (h₂.2 b (lt_of_lt_of_le hb h₁.1)).trans (h₁.2 b hb)⟩

theorem OutPres_append (out : Store) (δ : Store) : OutPres out (out ++ δ) := by
  refine ⟨by simp, fun b hb => ?_⟩
  rw [List.get?_append hb]

/-- The round-trip invariant tying the serializer's visited list to the
parser's state.  `P` is the set of output pointers still under construction
(allocated, registered in `refs`, contents not yet final). -/
structure RTInv (S1 : Store) (visited : List JSVal) (st : PSt) (P : List Nat) :
    Prop where
  (fresh : ∀ i, visited.length ≤ i → refsGet? st.refs i = none)
  (primc : ∀ i p, visited.get? i = some (.prim p) →
    refsGet? st.refs i = some (.prim p))
  (refc : ∀ i a, visited.get? i = some (.ref a) →
    ∃ b, refsGet? st.refs i = some (.ref b) ∧ b < st.out.length ∧
      (b ∈ P ∨ ∃ n₁ n₂, S1.get? a = some n₁ ∧ st.out.get? b = some n₂ ∧
        NodeMatchP (pairMem visited st.refs) n₁ n₂))
  (inj : ∀ i j a a' b, visited.get? i = some (.ref a) →
    refsGet? st.refs i = some (.ref b) → visited.get? j = some (.ref a') →
    refsGet? st.refs j = some (.ref b) → i = j)

/-- The empty run satisfies the invariant. -/
theorem RTInv.empty (S1 : Store) : RTInv S1 [] ⟨[], []⟩ [] := by
  refine ⟨fun i _ => rfl, fun i p h => ?_, fun i a h => ?_, fun i j a a' b h => ?_⟩
  all_goals simp at h

theorem get?_set_self {α : Type} (l : List α) (b : Nat) (x : α) (h : b < l.length) :
    (l.set b x).get? b = some x := by
  rw [List.get?_set_eq, List.get?_eq_get h]
  rfl

/-- Registering a primitive at the next position preserves the invariant. -/
theorem RTInv.push_prim (S1 : Store) {visited : List JSVal} {st : PSt} {P : List Nat}
    (inv : RTInv S1 visited st P) (p : Prim) :
    RTInv S1 (visited ++ [.prim p])
      ⟨st.out, refsSet st.refs visited.length (.prim p)⟩ P := by
  have hfreshlen := inv.fresh visited.length (le_refl _)
  refine ⟨?_, ?_, ?_, ?_⟩
  · intro i hi
    rw [List.length_append, List.length_singleton] at hi
    rw [refsGet?_set_ne _ _ _ _ (by omega)]
    exact inv.fresh i (by omega)
  · intro i q h
    have hlt : i < visited.length + 1 := by
      have := (List.get?_eq_some.mp h).1
      simpa using this
    by_cases hi : i = visited.length
    · subst hi
      rw [List.get?_concat_length] at h
      have hq : q = p := by
        injection h with h'
        injection h' with h''
        exact h''.symm
      subst hq
      exact refsGet?_set_self _ _ _
    · rw [List.get?_append (by omega)] at h
      rw [refsGet?_set_ne _ _ _ _ hi]
      exact inv.primc i q h
  · intro i a h
    have hlt : i < visited.length + 1 := by
      have := (List.get?_eq_some.mp h).1
      simpa using this
    by_cases hi : i = visited.length
    · subst hi
      rw [List.get?_concat_length] at h
      exact absurd h (by simp)
    · rw [List.get?_append (by omega)] at h
      obtain ⟨b, hb, hblt, hrest⟩ := inv.refc i a h
      refine ⟨b, by rw [refsGet?_set_ne _ _ _ _ hi]; exact hb, hblt, ?_⟩
      rcases hrest with hp | ⟨n₁, n₂, h₁, h₂, hnm⟩
      · exact Or.inl hp
      · exact Or.inr ⟨n₁, n₂, h₁, h₂, NodeMatchP_mono
          (pairMem_mono [.prim p] rfl
            (refsExtends_set _ _ _ hfreshlen)) _ _ hnm⟩
  · intro i j a a' b hiv hir hjv hjr
    have hilt : i < visited.length + 1 := by
      have := (List.get?_eq_some.mp hiv).1
      simpa using this
    have hjlt : j < visited.length + 1 := by
      have := (List.get?_eq_some.mp hjv).1
      simpa using this
    have hi : i ≠ visited.length := by
      intro he
      subst he
      rw [List.get?_concat_length] at hiv
      exact absurd hiv (by simp)
    have hj : j ≠ visited.length := by
      intro he
      subst he
      rw [List.get?_concat_length] at hjv
      exact absurd hjv (by simp)
    rw [List.get?_append (by omega)] at hiv
    rw [List.get?_append (by omega)] at hjv
    rw [refsGet?_set_ne _ _ _ _ hi] at hir
    rw [refsGet?_set_ne _ _ _ _ hj] at hjr
    exact inv.inj i j a a' b hiv hir hjv hjr

/-- Allocating a finalized leaf object (URL, Date, RegExp) at the next
position preserves the invariant. -/
theorem RTInv.push_ref_final (S1 : Store) {visited : List JSVal} {st : PSt}
    {P : List Nat} (inv : RTInv S1 visited st P) (a : Nat) (n₁ n₂ : Node)
    (hS1 : S1.get? a = some n₁) (hnm : ∀ r : Nat → Nat → Prop, NodeMatchP r n₁ n₂) :
    RTInv S1 (visited ++ [.ref a])
      ⟨st.out ++ [n₂], refsSet st.refs visited.length (.ref st.out.length)⟩ P := by
  have hfreshlen := inv.fresh visited.length (le_refl _)
  have hmono := @pairMem_mono visited (visited ++ [JSVal.ref a]) st.refs
    (refsSet st.refs visited.length (.ref st.out.length)) [JSVal.ref a] rfl
    (refsExtends_set st.refs visited.length (.ref st.out.length) hfreshlen)
  refine ⟨?_, ?_, ?_, ?_⟩
  · intro i hi
    rw [List.length_append, List.length_singleton] at hi
    rw [refsGet?_set_ne _ _ _ _ (by omega)]
    exact inv.fresh i (by omega)
  · intro i q h
    have hlt : i < visited.length + 1 := by
      have := (List.get?_eq_some.mp h).1
      simpa using this
    by_cases hi : i = visited.length
    · subst hi
      rw [List.get?_concat_length] at h
      exact absurd h (by simp)
    · rw [List.get?_append (by omega)] at h
      rw [refsGet?_set_ne _ _ _ _ hi]
      exact inv.primc i q h
  · intro i a' h
    have hlt : i < visited.length + 1 := by
      have := (List.get?_eq_some.mp h).1
      simpa using this
    by_cases hi : i = visited.length
    · subst hi
      rw [List.get?_concat_length] at h
      have ha : a' = a := by
        injection h with h'
        injection h' with h''
        exact h''.symm
      subst ha
      refine ⟨st.out.length, refsGet?_set_self _ _ _, by simp, Or.inr
        ⟨n₁, n₂, hS1, List.get?_concat_length st.out n₂, hnm _⟩⟩
    · rw [List.get?_append (by omega)] at h
      obtain ⟨b, hb, hblt, hrest⟩ := inv.refc i a' h
      refine ⟨b, by rw [refsGet?_set_ne _ _ _ _ hi]; exact hb,
        by simp; omega, ?_⟩
      rcases hrest with hp | ⟨m₁, m₂, h₁, h₂, hm⟩
      · exact Or.inl hp
      · exact Or.inr ⟨m₁, m₂, h₁,
          by rw [List.get?_append hblt]; exact h₂,
          NodeMatchP_mono hmono _ _ hm⟩
  · intro i j a₁ a₂ b hiv hir hjv hjr
    have hilt : i < visited.length + 1 := by
      have := (List.get?_eq_some.mp hiv).1
      simpa using this
    have hjlt : j < visited.length + 1 := by
      have := (List.get?_eq_some.mp hjv).1
      simpa using this
    by_cases hi : i = visited.length <;> by_cases hj : j = visited.length
    · omega
    · subst hi
      rw [refsGet?_set_self] at hir
      rw [List.get?_append (by omega)] at hjv
      rw [refsGet?_set_ne _ _ _ _ hj] at hjr
      obtain ⟨b', hb', hblt', _⟩ := inv.refc j a₂ hjv
      rw [hjr] at hb'
      injection hb' with hb''
      injection hb'' with hb₃
      injection hir with hir'
      injection hir' with hir''
      omega
    · subst hj
      rw [refsGet?_set_self] at hjr
      rw [List.get?_append (by omega)] at hiv
      rw [refsGet?_set_ne _ _ _ _ hi] at hir
      obtain ⟨b', hb', hblt', _⟩ := inv.refc i a₁ hiv
      rw [hir] at hb'
      injection hb' with hb''
      injection hb'' with hb₃
      injection hjr with hjr'
      injection hjr' with hjr''
      omega
    · rw [List.get?_append (by omega)] at hiv
      rw [List.get?_append (by omega)] at hjv
      rw [refsGet?_set_ne _ _ _ _ hi] at hir
      rw [refsGet?_set_ne _ _ _ _ hj] at hjr
      exact inv.inj i j a₁ a₂ b hiv hir hjv hjr

/-- Allocating a container placeholder at the next position preserves the
invariant with its pointer pending. -/
theorem RTInv.push_ref_pending (S1 : Store) {visited : List JSVal} {st : PSt}
    {P : List Nat} (inv : RTInv S1 visited st P) (a : Nat) (n₂ : Node) :
    RTInv S1 (visited ++ [.ref a])
      ⟨st.out ++ [n₂], refsSet st.refs visited.length (.ref st.out.length)⟩
      (st.out.length :: P) := by
  have hfreshlen := inv.fresh visited.length (le_refl _)
  have hmono := @pairMem_mono visited (visited ++ [JSVal.ref a]) st.refs
    (refsSet st.refs visited.length (.ref st.out.length)) [JSVal.ref a] rfl
    (refsExtends_set st.refs visited.length (.ref st.out.length) hfreshlen)
  refine ⟨?_, ?_, ?_, ?_⟩
  · intro i hi
    rw [List.length_append, List.length_singleton] at hi
    rw [refsGet?_set_ne _ _ _ _ (by omega)]
    exact inv.fresh i (by omega)
  · intro i q h
    have hlt : i < visited.length + 1 := by
      have := (List.get?_eq_some.mp h).1
      simpa using this
    by_cases hi : i = visited.length
    · subst hi
      rw [List.get?_concat_length] at h
      exact absurd h (by simp)
    · rw [List.get?_append (by omega)] at h
      rw [refsGet?_set_ne _ _ _ _ hi]
      exact inv.primc i q h
  · intro i a' h
    have hlt : i < visited.length + 1 := by
      have := (List.get?_eq_some.mp h).1
      simpa using this
    by_cases hi : i = visited.length
    · subst hi
      rw [List.get?_concat_length] at h
      exact ⟨st.out.length, refsGet?_set_self _ _ _, by simp, Or.inl (by simp)⟩
    · rw [List.get?_append (by omega)] at h
      obtain ⟨b, hb, hblt, hrest⟩ := inv.refc i a' h
      refine ⟨b, by rw [refsGet?_set_ne _ _ _ _ hi]; exact hb,
        by simp; omega, ?_⟩
      rcases hrest with hp | ⟨m₁, m₂, h₁, h₂, hm⟩
      · exact Or.inl (List.mem_cons_of_mem _ hp)
      · exact Or.inr ⟨m₁, m₂, h₁,
          by rw [List.get?_append hblt]; exact h₂,
          NodeMatchP_mono hmono _ _ hm⟩
  · intro i j a₁ a₂ b hiv hir hjv hjr
    have hilt : i < visited.length + 1 := by
      have := (List.get?_eq_some.mp hiv).1
      simpa using this
    have hjlt : j < visited.length + 1 := by
      have := (List.get?_eq_some.mp hjv).1
      simpa using this
    by_cases hi : i = visited.length <;> by_cases hj : j = visited.length
    · omega
    · subst hi
      rw [refsGet?_set_self] at hir
      rw [List.get?_append (by omega)] at hjv
      rw [refsGet?_set_ne _ _ _ _ hj] at hjr
      obtain ⟨b', hb', hblt', _⟩ := inv.refc j a₂ hjv
      rw [hjr] at hb'
      injection hb' with hb''
      injection hb'' with hb₃
      injection hir with hir'
      injection hir' with hir''
      omega
    · subst hj
      rw [refsGet?_set_self] at hjr
      rw [List.get?_append (by omega)] at hiv
      rw [refsGet?_set_ne _ _ _ _ hi] at hir
      obtain ⟨b', hb', hblt', _⟩ := inv.refc i a₁ hiv
      rw [hir] at hb'
      injection hb' with hb''
      injection hb'' with hb₃
      injection hjr with hjr'
      injection hjr' with hjr''
      omega
    · rw [List.get?_append (by omega)] at hiv
      rw [List.get?_append (by omega)] at hjv
      rw [refsGet?_set_ne _ _ _ _ hi] at hir
      rw [refsGet?_set_ne _ _ _ _ hj] at hjr
      exact inv.inj i j a₁ a₂ b hiv hir hjv hjr

/-- Finalizing a pending container pointer with a matching node discharges it
from the pending set. -/
theorem RTInv.finalize (S1 : Store) {visited : List JSVal} {st : PSt}
    {P : List Nat} (b : Nat) (inv : RTInv S1 visited st (b :: P))
    (i a : Nat) (n₁ n₂ : Node)
    (hiv : visited.get? i = some (.ref a))
    (hir : refsGet? st.refs i = some (.ref b))
    (hS1 : S1.get? a = some n₁)
    (hb : b < st.out.length)
    (hnm : NodeMatchP (pairMem visited st.refs) n₁ n₂) :
    RTInv S1 visited ⟨st.out.set b n₂, st.refs⟩ P := by
  refine ⟨inv.fresh, inv.primc, ?_, inv.inj⟩
  intro j a' hjv
  obtain ⟨b', hb', hblt', hrest⟩ := inv.refc j a' hjv
  by_cases hbb : b' = b
  · subst hbb
    have hji : j = i := inv.inj j i a' a b' hjv hb' hiv hir
    subst hji
    have haa : a' = a := by
      have h := hjv.symm.trans hiv
      have h' := Option.some.inj h
      exact JSVal.ref.inj h'
    subst haa
    refine ⟨b', hb', by simpa [List.length_set] using hblt',
      Or.inr ⟨n₁, n₂, hS1, ?_, hnm⟩⟩
    show List.get? (st.out.set b' n₂) b' = some n₂
    exact get?_set_self _ _ _ hb
  · refine ⟨b', hb', by simpa [List.length_set] using hblt', ?_⟩
    rcases hrest with hp | ⟨m₁, m₂, h₁, h₂, hm⟩
    · rcases List.mem_cons.mp hp with he | hp'
      · exact absurd he hbb
      · exact Or.inl hp'
    · refine Or.inr ⟨m₁, m₂, h₁, ?_, hm⟩
      show List.get? (st.out.set b n₂) b' = some m₂
      rw [List.get?_set_ne n₂ st.out (fun he => hbb he.symm)]
      exact h₂

/-- Round-trip statement for one value at a given fuel: a successful
serialization extends the visited list, and parsing the produced tree from
any state satisfying the invariant succeeds, preserves and extends the
state, maintains the invariant, and yields a corresponding value. -/
def PSer (S1 : Store) (fuel : Nat) : Prop :=
  ∀ v visited s visited',
    innerSerializeValue S1 fuel v none visited = .ok (s, visited') →
    (∃ δ, visited' = visited ++ δ) ∧
    ∀ st P, RTInv S1 visited st P →
      ∃ w st', innerParseSerializedValue [] fuel s st = .ok (w, st') ∧
        OutPres st.out st'.out ∧ refsExtends st.refs st'.refs ∧
        RTInv S1 visited' st' P ∧
        (∀ p, v = .prim p → w = .prim p) ∧
        (∀ a, v = .ref a → ∃ b, w = .ref b ∧ pairMem visited' st'.refs a b)

/-- Round-trip statement for an element list. -/
def QSer (S1 : Store) (fuel : Nat) : Prop :=
  ∀ vs visited ss visited',
    innerSerializeList S1 fuel vs none visited = .ok (ss, visited') →
    (∃ δ, visited' = visited ++ δ) ∧
    ∀ st P, RTInv S1 visited st P →
      ∃ ws st', innerParseList [] fuel ss st = .ok (ws, st') ∧
        OutPres st.out st'.out ∧ refsExtends st.refs st'.refs ∧
        RTInv S1 visited' st' P ∧
        ValsCorrP (pairMem visited' st'.refs) vs ws

/-- Round-trip statement for a property list (with the accumulator of the
object under construction). -/
def RSer (S1 : Store) (fuel : Nat) : Prop :=
  ∀ ps visited ss visited',
    innerSerializeProps S1 fuel ps none visited = .ok (ss, visited') →
    (∃ δ, visited' = visited ++ δ) ∧
    ∀ st P acc, RTInv S1 visited st P →
      (ps.map Prod.fst).Nodup →
      (∀ k ∈ ps.map Prod.fst, ∀ kv ∈ acc, kv.1 ≠ k) →
      ∃ newPairs st',
        innerParseProps [] fuel ss acc st = .ok (acc ++ newPairs, st') ∧
        OutPres st.out st'.out ∧ refsExtends st.refs st'.refs ∧
        RTInv S1 visited' st' P ∧
        PropsCorrP (pairMem visited' st'.refs) ps newPairs

/-- Lifting a value correspondence along a later parse state. -/
theorem ValCorrP_lift {visited visited' : List JSVal}
    {refs refs' : List (Nat × JSVal)} (δ : List JSVal)
    (hvis : visited' = visited ++ δ) (hrefs : refsExtends refs refs')
    {v w : JSVal} (h : ValCorrP (pairMem visited refs) v w) :
    ValCorrP (pairMem visited' refs') v w :=
  ValCorrP_mono (pairMem_mono δ hvis hrefs) v w h

/-- The per-value correspondence conclusions give a `ValCorrP`. -/
theorem valCorr_of_cases {visited : List JSVal} {refs : List (Nat × JSVal)}
    {v w : JSVal}
    (hp : ∀ p, v = .prim p → w = .prim p)
    (hr : ∀ a, v = .ref a → ∃ b, w = .ref b ∧ pairMem visited refs a b) :
    ValCorrP (pairMem visited refs) v w := by
  cases v with
  | prim p =>
    rw [hp p rfl]
    show p = p
    rfl
  | ref a =>
    obtain ⟨b, hw, hm⟩ := hr a rfl
    rw [hw]
    exact hm

/-- Inverting a successful `Except` bind. -/
theorem except_bind_ok {α β : Type} (m : Except String α) (f : α → Except String β)
    (b : β) (h : (m >>= f) = .ok b) : ∃ a, m = .ok a ∧ f a = .ok b := by
  cases m with
  | error e => simp [Bind.bind, Except.bind] at h
  | ok a => exact ⟨a, rfl, by simpa [Bind.bind, Except.bind] using h⟩

/-- The list step of the round-trip induction. -/
theorem QSer_step (S1 : Store) (fuel : Nat) (hP : PSer S1 fuel)
    (hQ : QSer S1 fuel) : QSer S1 (fuel + 1) := by
  intro vs visited ss visited' h
  match vs with
  | [] =>
    simp only [innerSerializeList] at h
    obtain ⟨hss, hvis⟩ := Prod.mk.injEq .. ▸ Except.ok.inj h
    subst hss hvis
    refine ⟨⟨[], by simp⟩, ?_⟩
    intro st P inv
    exact ⟨[], st, rfl, OutPres_refl _, refsExtends_refl _, inv, trivial⟩
  | v :: vs' =>
    rw [innerSerializeList] at h
    obtain ⟨⟨s, vis₁⟩, hv, h⟩ := except_bind_ok _ _ _ h
    dsimp only at h
    obtain ⟨⟨ss', vis₂⟩, hl, h⟩ := except_bind_ok _ _ _ h
    dsimp only at h
    obtain ⟨hss, hvis⟩ := Prod.mk.injEq .. ▸ Except.ok.inj h
    subst hss hvis
    obtain ⟨⟨δ₁, hδ₁⟩, T₁⟩ := hP v visited s vis₁ hv
    obtain ⟨⟨δ₂, hδ₂⟩, T₂⟩ := hQ vs' vis₁ ss' vis₂ hl
    refine ⟨⟨δ₁ ++ δ₂, by rw [hδ₂, hδ₁, List.append_assoc]⟩, ?_⟩
    intro st P inv
    obtain ⟨w, st₁, hparse₁, pres₁, ext₁, inv₁, hcp, hcr⟩ := T₁ st P inv
    obtain ⟨ws, st₂, hparse₂, pres₂, ext₂, inv₂, hcorr⟩ := T₂ st₁ P inv₁
    refine ⟨w :: ws, st₂, ?_, OutPres_trans pres₁ pres₂, refsExtends_trans ext₁ ext₂, inv₂, ?_, hcorr⟩
    · rw [innerParseList, hparse₁]
      simp only [Bind.bind, Except.bind]
      rw [hparse₂]
    · exact ValCorrP_lift δ₂ hδ₂ ext₂ (valCorr_of_cases hcp hcr)

/-- The property-list step of the round-trip induction. -/
theorem RSer_step (S1 : Store) (fuel : Nat) (hP : PSer S1 fuel)
    (hR : RSer S1 fuel) : RSer S1 (fuel + 1) := by
  intro ps visited ss visited' h
  match ps with
  | [] =>
    simp only [innerSerializeProps] at h
    obtain ⟨hss, hvis⟩ := Prod.mk.injEq .. ▸ Except.ok.inj h
    subst hss hvis
    refine ⟨⟨[], by simp⟩, ?_⟩
    intro st P acc inv _ _
    exact ⟨[], st, by simp [innerParseProps], OutPres_refl _, refsExtends_refl _,
      inv, trivial⟩
  | (k, v) :: ps' =>
    rw [innerSerializeProps] at h
    obtain ⟨⟨s, vis₁⟩, hv, h⟩ := except_bind_ok _ _ _ h
    dsimp only at h
    obtain ⟨⟨ss', vis₂⟩, hl, h⟩ := except_bind_ok _ _ _ h
    dsimp only at h
    obtain ⟨hss, hvis⟩ := Prod.mk.injEq .. ▸ Except.ok.inj h
    subst hss hvis
    obtain ⟨⟨δ₁, hδ₁⟩, T₁⟩ := hP v visited s vis₁ hv
    obtain ⟨⟨δ₂, hδ₂⟩, T₂⟩ := hR ps' vis₁ ss' vis₂ hl
    refine ⟨⟨δ₁ ++ δ₂, by rw [hδ₂, hδ₁, List.append_assoc]⟩, ?_⟩
    intro st P acc inv hnd hdisj
    obtain ⟨w, st₁, hparse₁, pres₁, ext₁, inv₁, hcp, hcr⟩ := T₁ st P inv
    rw [List.map_cons, List.nodup_cons] at hnd
    have hk : ∀ kv ∈ acc, kv.1 ≠ k :=
      hdisj k (by simp)
    have hdisj' : ∀ k' ∈ ps'.map Prod.fst, ∀ kv ∈ acc ++ [(k, w)], kv.1 ≠ k' := by
      intro k' hk' kv hkv
      rcases List.mem_append.mp hkv with hkv | hkv
      · exact hdisj k' (by simp [hk']) kv hkv
      · have : kv = (k, w) := by simpa using hkv
        subst this
        intro he
        exact hnd.1 (he ▸ hk')
    obtain ⟨newPairs, st₂, hparse₂, pres₂, ext₂, inv₂, hcorr⟩ :=
      T₂ st₁ P (acc ++ [(k, w)]) inv₁ hnd.2 hdisj'
    refine ⟨(k, w) :: newPairs, st₂, ?_, OutPres_trans pres₁ pres₂, refsExtends_trans ext₁ ext₂,
      inv₂, ?_, ?_, hcorr⟩
    · rw [innerParseProps, hparse₁]
      simp only [Bind.bind, Except.bind]
      rw [jsObjSet_append acc k w hk]
      rw [hparse₂]
      simp
    · rfl
    · exact ValCorrP_lift δ₂ hδ₂ ext₂ (valCorr_of_cases hcp hcr)

/-- Packaging of the parse conclusion for a freshly registered primitive. -/
theorem PSer_prim_conclusion (S1 : Store) (fuel : Nat) {visited : List JSVal}
    {st : PSt} {P : List Nat} (inv : RTInv S1 visited st P) (p : Prim) (node : SVal)
    (hparse : innerParseSerializedValue [] (fuel + 1) node st =
      .ok (.prim p, ⟨st.out, refsSet st.refs visited.length (.prim p)⟩)) :
    ∃ w st', innerParseSerializedValue [] (fuel + 1) node st = .ok (w, st') ∧
      OutPres st.out st'.out ∧ refsExtends st.refs st'.refs ∧
      RTInv S1 (visited ++ [JSVal.prim p]) st' P ∧
      (∀ q, (JSVal.prim p) = .prim q → w = .prim q) ∧
      (∀ a, (JSVal.prim p) = .ref a →
        ∃ b, w = .ref b ∧ pairMem (visited ++ [JSVal.prim p]) st'.refs a b) :=
  ⟨.prim p, _, hparse, OutPres_refl _,
    refsExtends_set _ _ _ (inv.fresh _ (le_refl _)), RTInv.push_prim S1 inv p,
    fun _ hq => hq, fun a ha => absurd ha (by simp)⟩

/-- Packaging of the parse conclusion for a freshly allocated leaf object. -/
theorem PSer_leafref_conclusion (S1 : Store) (fuel : Nat) {visited : List JSVal}
    {st : PSt} {P : List Nat} (inv : RTInv S1 visited st P) (a : Nat)
    (n₁ n₂ : Node) (hS1 : S1.get? a = some n₁)
    (hnm : ∀ r : Nat → Nat → Prop, NodeMatchP r n₁ n₂) (node : SVal)
    (hparse : innerParseSerializedValue [] (fuel + 1) node st =
      .ok (.ref st.out.length,
        ⟨st.out ++ [n₂], refsSet st.refs visited.length (.ref st.out.length)⟩)) :
    ∃ w st', innerParseSerializedValue [] (fuel + 1) node st = .ok (w, st') ∧
      OutPres st.out st'.out ∧ refsExtends st.refs st'.refs ∧
      RTInv S1 (visited ++ [JSVal.ref a]) st' P ∧
      (∀ p, (JSVal.ref a) = .prim p → w = .prim p) ∧
      (∀ a', (JSVal.ref a) = .ref a' →
        ∃ b, w = .ref b ∧ pairMem (visited ++ [JSVal.ref a]) st'.refs a' b) := by
  refine ⟨.ref st.out.length, _, hparse, OutPres_append _ _,
    refsExtends_set _ _ _ (inv.fresh _ (le_refl _)),
    RTInv.push_ref_final S1 inv a n₁ n₂ hS1 hnm,
    fun p hp => absurd hp (by simp), fun a' ha' => ?_⟩
  have haa : a = a' := JSVal.ref.inj ha'
  subst haa
  exact ⟨st.out.length, rfl,
    ⟨visited.length, List.get?_concat_length visited (.ref a),
      refsGet?_set_self _ _ _⟩⟩

/-- Store preservation across allocate-then-finalize of one container. -/
theorem OutPres_finalize {out mid : Store} (x n : Node)
    (h : OutPres (out ++ [x]) mid) : OutPres out (mid.set out.length n) := by
  have hlen : out.length + 1 ≤ mid.length := by
    have := h.1
    simpa using this
  refine ⟨by rw [List.length_set]; omega, ?_⟩
  intro b hb
  rw [List.get?_set_ne n mid (by omega)]
  rw [h.2 b (by simp; omega)]
  rw [List.get?_append hb]

/-- The value step of the round-trip induction. -/
theorem PSer_step (S1 : Store) (hHF : HandleFree S1) (hWF : ObjWF S1) (fuel : Nat)
    (hP : PSer S1 fuel) (hQ : QSer S1 fuel) (hR : RSer S1 fuel) :
    PSer S1 (fuel + 1) := by
  intro v visited s visited' h
  rw [innerSerializeValue] at h
  rcases hfind : visited.findIdx? (fun w => v = w) with _ | j <;> rw [hfind] at h
  case some =>
    obtain ⟨hs, hvis⟩ := Prod.mk.injEq .. ▸ Except.ok.inj h
    subst hs hvis
    obtain ⟨hjlt, x, hx, hpx⟩ := findIdx?_some_facts _ _ _ hfind
    have hvx : v = x := of_decide_eq_true hpx
    rw [← hvx] at hx
    refine ⟨⟨[], by simp⟩, ?_⟩
    intro st P inv
    cases v with
    | prim p =>
      have hr := inv.primc j p hx
      exact ⟨.prim p, st, by simp only [innerParseSerializedValue, SVal.idx, hr],
        OutPres_refl _, refsExtends_refl _, inv, fun _ hq => hq,
        fun a ha => absurd ha (by simp)⟩
    | ref a =>
      obtain ⟨b, hbr, hblt, _⟩ := inv.refc j a hx
      refine ⟨.ref b, st, by simp only [innerParseSerializedValue, SVal.idx, hbr],
        OutPres_refl _, refsExtends_refl _, inv, fun p hp => absurd hp (by simp),
        fun a' ha' => ?_⟩
      have haa : a = a' := JSVal.ref.inj ha'
      subst haa
      exact ⟨b, rfl, ⟨j, hx, hbr⟩⟩
  case none =>
    cases v with
    | prim p =>
      cases p with
      | negZero =>
        obtain ⟨hs, hvis⟩ := Prod.mk.injEq .. ▸ Except.ok.inj h
        subst hs hvis
        refine ⟨⟨[.prim .negZero], rfl⟩, fun st P inv => ?_⟩
        exact PSer_prim_conclusion S1 fuel inv .negZero _
          (by simp only [innerParseSerializedValue, SVal.idx,
            inv.fresh visited.length (le_refl _)])
      | nan =>
        obtain ⟨hs, hvis⟩ := Prod.mk.injEq .. ▸ Except.ok.inj h
        subst hs hvis
        refine ⟨⟨[.prim .nan], rfl⟩, fun st P inv => ?_⟩
        exact PSer_prim_conclusion S1 fuel inv .nan _
          (by simp only [innerParseSerializedValue, SVal.idx,
            inv.fresh visited.length (le_refl _)])
      | undefined =>
        obtain ⟨hs, hvis⟩ := Prod.mk.injEq .. ▸ Except.ok.inj h
        subst hs hvis
        refine ⟨⟨[.prim .undefined], rfl⟩, fun st P inv => ?_⟩
        exact PSer_prim_conclusion S1 fuel inv .undefined _
          (by simp only [innerParseSerializedValue, SVal.idx,
            inv.fresh visited.length (le_refl _)])
      | inf =>
        obtain ⟨hs, hvis⟩ := Prod.mk.injEq .. ▸ Except.ok.inj h
        subst hs hvis
        refine ⟨⟨[.prim .inf], rfl⟩, fun st P inv => ?_⟩
        exact PSer_prim_conclusion S1 fuel inv .inf _
          (by simp only [innerParseSerializedValue, SVal.idx,
            inv.fresh visited.length (le_refl _)])
      | negInf =>
        obtain ⟨hs, hvis⟩ := Prod.mk.injEq .. ▸ Except.ok.inj h
        subst hs hvis
        refine ⟨⟨[.prim .negInf], rfl⟩, fun st P inv => ?_⟩
        exact PSer_prim_conclusion S1 fuel inv .negInf _
          (by simp only [innerParseSerializedValue, SVal.idx,
            inv.fresh visited.length (le_refl _)])
      | null =>
        obtain ⟨hs, hvis⟩ := Prod.mk.injEq .. ▸ Except.ok.inj h
        subst hs hvis
        refine ⟨⟨[.prim .null], rfl⟩, fun st P inv => ?_⟩
        exact PSer_prim_conclusion S1 fuel inv .null _
          (by simp only [innerParseSerializedValue, SVal.idx,
            inv.fresh visited.length (le_refl _)])
      | num q =>
        obtain ⟨hs, hvis⟩ := Prod.mk.injEq .. ▸ Except.ok.inj h
        subst hs hvis
        refine ⟨⟨[.prim (.num q)], rfl⟩, fun st P inv => ?_⟩
        exact PSer_prim_conclusion S1 fuel inv (.num q) _
          (by simp only [innerParseSerializedValue, SVal.idx,
            inv.fresh visited.length (le_refl _)])
      | bool b =>
        obtain ⟨hs, hvis⟩ := Prod.mk.injEq .. ▸ Except.ok.inj h
        subst hs hvis
        refine ⟨⟨[.prim (.bool b)], rfl⟩, fun st P inv => ?_⟩
        exact PSer_prim_conclusion S1 fuel inv (.bool b) _
          (by simp only [innerParseSerializedValue, SVal.idx,
            inv.fresh visited.length (le_refl _)])
      | str t =>
        obtain ⟨hs, hvis⟩ := Prod.mk.injEq .. ▸ Except.ok.inj h
        subst hs hvis
        refine ⟨⟨[.prim (.str t)], rfl⟩, fun st P inv => ?_⟩
        exact PSer_prim_conclusion S1 fuel inv (.str t) _
          (by simp only [innerParseSerializedValue, SVal.idx,
            inv.fresh visited.length (le_refl _)])
      | bigint n =>
        obtain ⟨hs, hvis⟩ := Prod.mk.injEq .. ▸ Except.ok.inj h
        subst hs hvis
        refine ⟨⟨[.prim (.bigint n)], rfl⟩, fun st P inv => ?_⟩
        exact PSer_prim_conclusion S1 fuel inv (.bigint n) _
          (by simp only [innerParseSerializedValue, SVal.idx,
            inv.fresh visited.length (le_refl _),
            decStringToInt_intToDecString])
    | ref a =>
      dsimp only at h
      rcases hga : S1.get? a with _ | node <;> rw [hga] at h
      · exact absurd h (by simp)
      cases node with
      | handle hid =>
        have hmem : Node.handle hid ∈ S1 := List.get?_mem hga
        exact absurd (hHF _ hmem) (by simp [notHandle])
      | fn src => exact absurd h (by simp)
      | url href =>
        obtain ⟨hs, hvis⟩ := Prod.mk.injEq .. ▸ Except.ok.inj h
        subst hs hvis
        refine ⟨⟨[.ref a], rfl⟩, fun st P inv => ?_⟩
        exact PSer_leafref_conclusion S1 fuel inv a (.url href) (.url href) hga
          (fun r => rfl) _
          (by simp only [innerParseSerializedValue, SVal.idx,
            inv.fresh visited.length (le_refl _)])
      | date iso =>
        obtain ⟨hs, hvis⟩ := Prod.mk.injEq .. ▸ Except.ok.inj h
        subst hs hvis
        refine ⟨⟨[.ref a], rfl⟩, fun st P inv => ?_⟩
        exact PSer_leafref_conclusion S1 fuel inv a (.date iso) (.date iso) hga
          (fun r => rfl) _
          (by simp only [innerParseSerializedValue, SVal.idx,
            inv.fresh visited.length (le_refl _)])
      | regexp rp rf =>
        obtain ⟨hs, hvis⟩ := Prod.mk.injEq .. ▸ Except.ok.inj h
        subst hs hvis
        refine ⟨⟨[.ref a], rfl⟩, fun st P inv => ?_⟩
        exact PSer_leafref_conclusion S1 fuel inv a (.regexp rp rf) (.regexp rp rf)
          hga (fun r => ⟨rfl, rfl⟩) _
          (by simp only [innerParseSerializedValue, SVal.idx,
            inv.fresh visited.length (le_refl _)])
      | error en em ec estack =>
        obtain ⟨⟨cs, vis₁⟩, h1, h⟩ := except_bind_ok _ _ _ h
        dsimp only at h
        obtain ⟨hs, hvis⟩ := Prod.mk.injEq .. ▸ Except.ok.inj h
        subst hs hvis
        obtain ⟨⟨δc, hδc⟩, T⟩ := hP ec (visited ++ [.ref a]) cs vis₁ h1
        refine ⟨⟨.ref a :: δc, by rw [hδc]; simp⟩, ?_⟩
        intro st P inv
        have hfresh := inv.fresh visited.length (le_refl _)
        have inv₁ : RTInv S1 (visited ++ [.ref a])
            ⟨st.out ++ [Node.error en em (.prim .undefined) estack],
             refsSet st.refs visited.length (.ref st.out.length)⟩
            (st.out.length :: P) :=
          RTInv.push_ref_pending S1 inv a _
        obtain ⟨cv, st₂, hparse₁, pres₁, ext₁, inv₂, hcp, hcr⟩ :=
          T _ (st.out.length :: P) inv₁
        have hvis_at : vis₁.get? visited.length = some (.ref a) := by
          rw [hδc, List.get?_append (by simp), List.get?_concat_length]
        have hrefs_at : refsGet? st₂.refs visited.length =
            some (.ref st.out.length) :=
          ext₁ _ _ (refsGet?_set_self _ _ _)
        have hb2 : st.out.length < st₂.out.length := by
          have := pres₁.1
          simp only [List.length_append, List.length_singleton] at this
          omega
        have hnm : NodeMatchP (pairMem vis₁ st₂.refs)
            (.error en em ec estack) (.error en em cv estack) :=
          ⟨rfl, rfl, valCorr_of_cases hcp hcr, rfl⟩
        have invF := RTInv.finalize S1 st.out.length inv₂ visited.length a _ _
          hvis_at hrefs_at hga hb2 hnm
        refine ⟨.ref st.out.length,
          ⟨st₂.out.set st.out.length (Node.error en em cv estack), st₂.refs⟩,
          ?_, OutPres_finalize _ _ pres₁,
          refsExtends_trans (refsExtends_set _ _ _ hfresh) ext₁, invF,
          fun p hp => absurd hp (by simp), fun a' ha' => ?_⟩
        · simp only [innerParseSerializedValue, SVal.idx, hfresh]
          rw [hparse₁]
          simp [Bind.bind, Except.bind]
        · have haa : a = a' := JSVal.ref.inj ha'
          subst haa
          exact ⟨st.out.length, rfl, ⟨visited.length, hvis_at, hrefs_at⟩⟩
      | arr elems =>
        obtain ⟨⟨es, vis₁⟩, h1, h⟩ := except_bind_ok _ _ _ h
        dsimp only at h
        obtain ⟨hs, hvis⟩ := Prod.mk.injEq .. ▸ Except.ok.inj h
        subst hs hvis
        obtain ⟨⟨δc, hδc⟩, T⟩ := hQ elems (visited ++ [.ref a]) es vis₁ h1
        refine ⟨⟨.ref a :: δc, by rw [hδc]; simp⟩, ?_⟩
        intro st P inv
        have hfresh := inv.fresh visited.length (le_refl _)
        have inv₁ : RTInv S1 (visited ++ [.ref a])
            ⟨st.out ++ [Node.arr []],
             refsSet st.refs visited.length (.ref st.out.length)⟩
            (st.out.length :: P) :=
          RTInv.push_ref_pending S1 inv a _
        obtain ⟨ws, st₂, hparse₁, pres₁, ext₁, inv₂, hcorr⟩ :=
          T _ (st.out.length :: P) inv₁
        have hvis_at : vis₁.get? visited.length = some (.ref a) := by
          rw [hδc, List.get?_append (by simp), List.get?_concat_length]
        have hrefs_at : refsGet? st₂.refs visited.length =
            some (.ref st.out.length) :=
          ext₁ _ _ (refsGet?_set_self _ _ _)
        have hb2 : st.out.length < st₂.out.length := by
          have := pres₁.1
          simp only [List.length_append, List.length_singleton] at this
          omega
        have hnm : NodeMatchP (pairMem vis₁ st₂.refs)
            (.arr elems) (.arr ws) := hcorr
        have invF := RTInv.finalize S1 st.out.length inv₂ visited.length a _ _
          hvis_at hrefs_at hga hb2 hnm
        refine ⟨.ref st.out.length,
          ⟨st₂.out.set st.out.length (Node.arr ws), st₂.refs⟩,
          ?_, OutPres_finalize _ _ pres₁,
          refsExtends_trans (refsExtends_set _ _ _ hfresh) ext₁, invF,
          fun p hp => absurd hp (by simp), fun a' ha' => ?_⟩
        · simp only [innerParseSerializedValue, SVal.idx, hfresh]
          rw [hparse₁]
          simp [Bind.bind, Except.bind]
        · have haa : a = a' := JSVal.ref.inj ha'
          subst haa
          exact ⟨st.out.length, rfl, ⟨visited.length, hvis_at, hrefs_at⟩⟩
      | obj props =>
        obtain ⟨⟨ps, vis₁⟩, h1, h⟩ := except_bind_ok _ _ _ h
        dsimp only at h
        obtain ⟨hs, hvis⟩ := Prod.mk.injEq .. ▸ Except.ok.inj h
        subst hs hvis
        obtain ⟨⟨δc, hδc⟩, T⟩ := hR props (visited ++ [.ref a]) ps vis₁ h1
        refine ⟨⟨.ref a :: δc, by rw [hδc]; simp⟩, ?_⟩
        intro st P inv
        have hfresh := inv.fresh visited.length (le_refl _)
        have inv₁ : RTInv S1 (visited ++ [.ref a])
            ⟨st.out ++ [Node.obj []],
             refsSet st.refs visited.length (.ref st.out.length)⟩
            (st.out.length :: P) :=
          RTInv.push_ref_pending S1 inv a _
        have hnd : (props.map Prod.fst).Nodup := by
          have hmem : Node.obj props ∈ S1 := List.get?_mem hga
          have := hWF _ hmem
          simpa [objNodupKeys] using this
        obtain ⟨newPairs, st₂, hparse₁, pres₁, ext₁, inv₂, hcorr⟩ :=
          T _ (st.out.length :: P) [] inv₁ hnd
            (fun k _ kv hkv => absurd hkv (by simp))
        have hvis_at : vis₁.get? visited.length = some (.ref a) := by
          rw [hδc, List.get?_append (by simp), List.get?_concat_length]
        have hrefs_at : refsGet? st₂.refs visited.length =
            some (.ref st.out.length) :=
          ext₁ _ _ (refsGet?_set_self _ _ _)
        have hb2 : st.out.length < st₂.out.length := by
          have := pres₁.1
          simp only [List.length_append, List.length_singleton] at this
          omega
        have hnm : NodeMatchP (pairMem vis₁ st₂.refs)
            (.obj props) (.obj newPairs) := hcorr
        have invF := RTInv.finalize S1 st.out.length inv₂ visited.length a _ _
          hvis_at hrefs_at hga hb2 hnm
        refine ⟨.ref st.out.length,
          ⟨st₂.out.set st.out.length (Node.obj newPairs), st₂.refs⟩,
          ?_, OutPres_finalize _ _ pres₁,
          refsExtends_trans (refsExtends_set _ _ _ hfresh) ext₁, invF,
          fun p hp => absurd hp (by simp), fun a' ha' => ?_⟩
        · simp only [innerParseSerializedValue, SVal.idx, hfresh]
          rw [show innerParseProps [] fuel ps []
              ⟨st.out ++ [Node.obj []],
               refsSet st.refs visited.length (.ref st.out.length)⟩ =
            .ok ([] ++ newPairs, st₂) from hparse₁]
          simp [Bind.bind, Except.bind]
        · have haa : a = a' := JSVal.ref.inj ha'
          subst haa
          exact ⟨st.out.length, rfl, ⟨visited.length, hvis_at, hrefs_at⟩⟩

theorem PSer_zero (S1 : Store) : PSer S1 0 := by
  intro v visited s visited' h
  simp [innerSerializeValue] at h

theorem QSer_zero (S1 : Store) : QSer S1 0 := by
  intro vs visited ss visited' h
  match vs with
  | [] =>
    simp only [innerSerializeList] at h
    obtain ⟨hss, hvis⟩ := Prod.mk.injEq .. ▸ Except.ok.inj h
    subst hss hvis
    refine ⟨⟨[], by simp⟩, ?_⟩
    intro st P inv
    exact ⟨[], st, rfl, OutPres_refl _, refsExtends_refl _, inv, trivial⟩
  | _ :: _ => simp [innerSerializeList] at h

theorem RSer_zero (S1 : Store) : RSer S1 0 := by
  intro ps visited ss visited' h
  match ps with
  | [] =>
    simp only [innerSerializeProps] at h
    obtain ⟨hss, hvis⟩ := Prod.mk.injEq .. ▸ Except.ok.inj h
    subst hss hvis
    refine ⟨⟨[], by simp⟩, ?_⟩
    intro st P acc inv _ _
    exact ⟨[], st, by simp [innerParseProps], OutPres_refl _, refsExtends_refl _,
      inv, trivial⟩
  | _ :: _ => simp [innerSerializeProps] at h

/-- The full round-trip induction over fuel. -/
theorem roundtrip_master (S1 : Store) (hHF : HandleFree S1) (hWF : ObjWF S1) :
    ∀ fuel, PSer S1 fuel ∧ QSer S1 fuel ∧ RSer S1 fuel := by
  intro fuel
  induction fuel with
  | zero => exact ⟨PSer_zero S1, QSer_zero S1, RSer_zero S1⟩
  | succ n ih =>
    exact ⟨PSer_step S1 hHF hWF n ih.1 ih.2.1 ih.2.2,
      QSer_step S1 n ih.1 ih.2.1, RSer_step S1 n ih.1 ih.2.2⟩

/-- The accumulated pointer relation as a list coincides with `pairMem`. -/
theorem pairsList_iff (visited : List JSVal) (refs : List (Nat × JSVal))
    (a b : Nat) : (a, b) ∈ pairsList visited refs ↔ pairMem visited refs a b := by
  constructor
  · intro h
    obtain ⟨i, hrange, hf⟩ := List.mem_filterMap.mp h
    rcases hv : visited.get? i with _ | w <;> rw [hv] at hf
    · simp at hf
    rcases w with p | a'
    · simp at hf
    rcases hr : refsGet? refs i with _ | x <;> rw [hr] at hf
    · simp at hf
    rcases x with p | b'
    · simp at hf
    obtain ⟨ha, hb⟩ := Prod.mk.injEq .. ▸ Option.some.inj hf
    subst ha hb
    exact ⟨i, hv, hr⟩
  · rintro ⟨i, hv, hr⟩
    refine List.mem_filterMap.mpr ⟨i, ?_, ?_⟩
    · exact List.mem_range.mpr (List.get?_eq_some.mp hv).1
    · rw [hv, hr]

/-- The cyclic example value from the specification:
`x = [1, ['deep', {deeper: []}]]; x.push(x)` — node 0 is the outer array. -/
def cyclicX : Store :=
  [.arr [.prim (.num 1), .ref 1, .ref 0],
   .arr [.prim (.str "deep"), .ref 2],
   .obj [("deeper", .ref 3)],
   .arr []]

/-- The serialized tree of the cyclic example. -/
def cyclicXTree : SVal :=
  .arr 0 [.nprim 1 (.num 1),
          .arr 2 [.nprim 3 (.str "deep"), .obj 4 [("deeper", .arr 5 [])]],
          .backref 0]

/-- C1 (amended): for every serializable, handle-free value — one on which
`serializeValue` succeeds with no fallback, over a heap without host-handle
objects and with well-formed plain objects — parsing the serialized tree
succeeds and the result is structurally equal (bisimilar) to the input,
primitives preserved exactly; and the cyclic value
`x = [1, ['deep', {deeper: []}]]; x.push(x)` is reproduced with the third
and final element (index 2) of the outer array being the outer array
itself. -/
theorem c1_roundtrip (S1 : Store) (v : JSVal) (fuel : Nat) (s : SVal)
    (vis' : List JSVal) (hHF : HandleFree S1) (hWF : ObjWF S1)
    (hser : serializeValue S1 fuel v none = .ok (s, vis')) :
    (∃ w st', parseSerializedValue [] fuel s [] = .ok (w, st') ∧
      StructEquiv S1 v st'.out w) ∧
    (serializeValue cyclicX 20 (.ref 0) none =
      .ok (cyclicXTree,
        [.ref 0, .prim (.num 1), .ref 1, .prim (.str "deep"), .ref 2, .ref 3]) ∧
     ∃ stc : PSt, parseSerializedValue [] 20 cyclicXTree [] = .ok (.ref 0, stc) ∧
       stc.out.get? 0 = some (.arr [.prim (.num 1), .ref 1, .ref 0])) := by
  constructor
  · obtain ⟨⟨δ, hδ⟩, T⟩ :=
      (roundtrip_master S1 hHF hWF fuel).1 v [] s vis' hser
    obtain ⟨w, st', hparse, _, _, invF, hcp, hcr⟩ := T ⟨[], []⟩ [] (RTInv.empty S1)
    refine ⟨w, st', hparse, pairsList vis' st'.refs, ?_, ?_⟩
    · intro pr hpr
      obtain ⟨a, b⟩ := pr
      obtain ⟨i, hiv, hir⟩ := (pairsList_iff _ _ a b).mp hpr
      obtain ⟨b', hir', hblt, hrest⟩ := invF.refc i a hiv
      have hbb : b' = b := by
        rw [hir] at hir'
        exact (JSVal.ref.inj (Option.some.inj hir')).symm
      subst hbb
      rcases hrest with hp | ⟨n₁, n₂, h₁, h₂, hnm⟩
      · exact absurd hp (by simp)
      · show pairOk S1 st'.out (pairsList vis' st'.refs) (a, b')
        unfold pairOk
        rw [h₁, h₂]
        exact NodeMatchP_mono
          (fun a b hm => (pairsList_iff vis' st'.refs a b).mpr hm) _ _ hnm
    · exact ValCorrP_mono
        (fun a b hm => (pairsList_iff vis' st'.refs a b).mpr hm) _ _
        (valCorr_of_cases hcp hcr)
  · exact ⟨rfl, ⟨[.arr [.prim (.num 1), .ref 1, .ref 0],
      .arr [.prim (.str "deep"), .ref 2],
      .obj [("deeper", .ref 3)],
      .arr []],
      [(0, .ref 0), (1, .prim (.num 1)), (2, .ref 1), (3, .prim (.str "deep")),
       (4, .ref 2), (5, .ref 3)]⟩, rfl, rfl⟩

/-- Witness for C1: the cyclic example parses back structurally equal. -/
theorem c1_roundtrip_witness :
    ∃ w st', parseSerializedValue [] 20 cyclicXTree [] = .ok (w, st') ∧
      StructEquiv cyclicX (.ref 0) st'.out w :=
  (c1_roundtrip cyclicX (.ref 0) 20 cyclicXTree
    [.ref 0, .prim (.num 1), .ref 1, .prim (.str "deep"), .ref 2, .ref 3]
    (by decide) (by decide) (by rfl)).1

/-- C1 counterexample for the claim as stated: the outer array of the
round-tripped cyclic value has exactly three elements, so its 4th element
(index 3) does not exist — in particular it is not the outer array itself
(the outer array appears at index 2). -/
theorem c1_counterexample :
    parseSerializedValue [] 20 cyclicXTree [] =
      .ok (.ref 0,
        ⟨[.arr [.prim (.num 1), .ref 1, .ref 0],
          .arr [.prim (.str "deep"), .ref 2],
          .obj [("deeper", .ref 3)],
          .arr []],
         [(0, .ref 0), (1, .prim (.num 1)), (2, .ref 1),
          (3, .prim (.str "deep")), (4, .ref 2), (5, .ref 3)]⟩) ∧
    ([.prim (.num 1), .ref 1, .ref 0] : List JSVal).get? 3 = none ∧
    ¬ (([.prim (.num 1), .ref 1, .ref 0] : List JSVal).get? 3 =
      some (.ref 0)) ∧
    cyclicX.get? 0 = some (.arr [.prim (.num 1), .ref 1, .ref 0]) ∧
    ([.prim (.num 1), .ref 1, .ref 0] : List JSVal).length = 3 :=
  ⟨rfl, rfl, by decide, rfl, rfl⟩
